import Mathlib

/-!
Verification of the hsm hierarchical state machine library (Go).

The definitions below are a shallow embedding of the library's core:
states are identified by natural-number indices into a list of state
records; the runtime algorithms (getTransition, Deliver, Initialize) and
the structural pass (Finalize, validate) are translated loop-by-loop from
the source, with explicit fuel standing in for Go's unguarded pointer
walks, and with entry/exit/action invocations additionally recorded in a
trace so that ordering claims can be stated.  Go panics are modelled by
boolean flags (crash for nil dereference / out-of-range / misuse, nilWrite
for assignment into a nil map).
-/

namespace Hsm

/-- Observable runtime events: entry action of a state, exit action of a
state, the transition action, and evaluation of a guard (state, index of
the transition in that state's declaration list). -/
inductive Act where
  | enterA (s : Nat)
  | exitA (s : Nat)
  | actA
  | guardA (s : Nat) (k : Nat)
deriving DecidableEq, Repr

/-- Event delivered to the machine.  The Go struct carries an integer Id
and an opaque Data field; the algorithms only inspect Id, and guards and
actions receive the whole event, so the opaque payload is omitted. -/
structure Event where
  id : Int
deriving DecidableEq, Repr

variable {Ext : Type}

/-- A transition record, mirroring the Go struct transition[E]:
internal/local flags, triggering event id, target state, optional guard,
optional action, and a history kind (0 none, 1 shallow, 2 deep). -/
structure Trans (Ext : Type) where
  internal : Bool
  isLocal : Bool
  eventId : Int
  target : Nat
  guard : Option (Event → Ext → Bool)
  action : Option (Event → Ext → Ext)
  history : Nat

instance : Inhabited (Trans Ext) :=
  ⟨⟨false, false, 0, 0, none, none, 0⟩⟩

/-- A state record, mirroring the Go struct State[E]: parent link (none
for the top state and the terminal sentinel), ordered children, optional
initial child, optional entry and exit actions, declared transitions and
the history bitmask accumulated at finalize time. -/
structure HState (Ext : Type) where
  parent : Option Nat
  children : List Nat
  initial : Option Nat
  entryAct : Option (Event → Ext → Ext)
  exitAct : Option (Event → Ext → Ext)
  transitions : List (Trans Ext)
  history : Nat

instance : Inhabited (HState Ext) :=
  ⟨⟨none, [], none, none, none, [], 0⟩⟩

/-- The machine template: the state table (index 0 is the top state),
the index of the terminal sentinel, the machine-wide history bitmask and
the finalized flag (top.validated in Go). -/
structure Machine (Ext : Type) where
  states : List (HState Ext)
  terminal : Nat
  machineHistory : Nat
  topValidated : Bool

/-- A machine instance: extended state, current state (none both before
initialization and after termination, disambiguated by the initialized
flag), the two lazily allocated history maps. -/
structure Inst (Ext : Type) where
  ext : Ext
  current : Option Nat
  historyShallow : Option (List (Nat × Nat))
  historyDeep : Option (List (Nat × Nat))
  initialized : Bool

def stN (m : Machine Ext) : Nat := m.states.length

def getSt (m : Machine Ext) (s : Nat) : HState Ext := m.states.getD s default

def parentOf (m : Machine Ext) (s : Nat) : Option Nat := (getSt m s).parent

def initialOf (m : Machine Ext) (s : Nat) : Option Nat := (getSt m s).initial

/-- Test of the HistoryShallow bit, mirroring h & HistoryShallow != 0. -/
def hasSh (h : Nat) : Bool := h &&& 1 != 0

/-- Test of the HistoryDeep bit, mirroring h & HistoryDeep != 0. -/
def hasDp (h : Nat) : Bool := h &&& 2 != 0

/-- Go map assignment m[k] = v (overwriting). -/
def mapInsert (l : List (Nat × Nat)) (k v : Nat) : List (Nat × Nat) :=
  (k, v) :: l.filter (fun p => p.1 != k)

/-- Go map lookup m[k], returning none for a missing key. -/
def mapLookup (l : List (Nat × Nat)) (k : Nat) : Option Nat :=
  (l.find? (fun p => p.1 == k)).map (·.2)

/-- Lookup in a possibly-nil Go map: reading a nil map yields the zero
value (none), which is safe in Go. -/
def lookupOpt (mp : Option (List (Nat × Nat))) (k : Nat) : Option Nat :=
  match mp with
  | none => none
  | some l => mapLookup l k

/-- Write into a possibly-nil Go map: assignment into a nil map panics;
the boolean records that panic. -/
def optWrite (mp : Option (List (Nat × Nat))) (k v : Nat) :
    Option (List (Nat × Nat)) × Bool :=
  match mp with
  | none => (none, true)
  | some l => (some (mapInsert l k v), false)

/-- Run an optional action (entry, exit or transition action), emitting
the given trace label exactly when the action is present, mirroring
if f != nil { f(e, ext) }. -/
def runA (f : Option (Event → Ext → Ext)) (lab : Act) (e : Event) (x : Ext) :
    List Act × Ext :=
  match f with
  | none => ([], x)
  | some g => ([lab], g e x)

/-- The upward pointer walk for s := x; s != nil; s = s.parent, collecting
the visited states.  Fuel bounds the walk; with fuel at least the walk's
length the result is the full root path. -/
def upPath (m : Machine Ext) : Nat → Option Nat → List Nat
  | _, none => []
  | 0, some _ => []
  | fuel + 1, some s => s :: upPath m fuel (parentOf m s)

/-- Whether the parent walk from s reaches a parentless state within the
given number of steps. -/
def rootedWithin (m : Machine Ext) : Nat → Nat → Bool
  | 0, _ => false
  | fuel + 1, s =>
    match parentOf m s with
    | none => true
    | some p => rootedWithin m fuel p

/-- Root path of a state with the canonical fuel. -/
def anc (m : Machine Ext) (s : Nat) : List Nat := upPath m (stN m) (some s)

/-- The LCA index scan of Deliver:
for i, j = len(srcPath)-2, len(dstPath)-2; i > 0 && j > 0 && srcPath[i] == dstPath[j]; i, j = i-1, j-1 {}.
Indices are Go ints; fuel bounds the loop (srcPath.length suffices since
i strictly decreases from len-2). -/
def lcaScan (sp dp : List Nat) : Nat → Int → Int → Int × Int
  | 0, i, j => (i, j)
  | fuel + 1, i, j =>
    if 0 < i ∧ 0 < j ∧ sp.getD i.toNat 0 = dp.getD j.toNat 0 then
      lcaScan sp dp fuel (i - 1) (j - 1)
    else (i, j)

/-- Scan of one state's transition list in declaration order, mirroring
the inner loop of getTransition.  Returns the guard-evaluation trace and
the index of the first transition whose event id matches and whose guard
is absent or true. -/
def scanTrans (e : Event) (x : Ext) (s : Nat) :
    List (Trans Ext) → Nat → List Act × Option Nat
  | [], _ => ([], none)
  | t :: rest, k =>
    if t.eventId = e.id then
      match t.guard with
      | none => ([], some k)
      | some g =>
        if g e x then ([Act.guardA s k], some k)
        else
          let r := scanTrans e x s rest (k + 1)
          (Act.guardA s k :: r.1, r.2)
    else scanTrans e x s rest (k + 1)

/-- The outer loop of getTransition: walk from the current leaf upward
through ancestors, returning the first (state, transition-index) match. -/
def getTransitionAux (m : Machine Ext) (e : Event) (x : Ext) :
    Nat → Option Nat → List Act × Option (Nat × Nat)
  | _, none => ([], none)
  | 0, some _ => ([], none)
  | fuel + 1, some src =>
    match scanTrans e x src (getSt m src).transitions 0 with
    | (tr, some k) => (tr, some (src, k))
    | (tr, none) =>
      let r := getTransitionAux m e x fuel (parentOf m src)
      (tr ++ r.1, r.2)

/-- Result of the exit phase: trace, updated extended state and history
maps, whether a nil-map write happened, whether another panic happened
(nil parent dereference or fuel exhaustion, impossible on trees). -/
structure ExitRes (Ext : Type) where
  trace : List Act
  ext : Ext
  hs : Option (List (Nat × Nat))
  hd : Option (List (Nat × Nat))
  nilWrite : Bool
  crash : Bool

/-- The exit phase of Deliver:
for s := current; s != lca; s = s.parent { exit; record shallow/deep history }.
cur0 is the original current leaf (recorded as the deep entry). -/
def exitLoop (m : Machine Ext) (e : Event) (cur0 lca : Nat) :
    Nat → Nat → Ext → Option (List (Nat × Nat)) → Option (List (Nat × Nat)) →
    ExitRes Ext
  | 0, _, x, hs, hd => ⟨[], x, hs, hd, false, true⟩
  | fuel + 1, s, x, hs, hd =>
    if s = lca then ⟨[], x, hs, hd, false, false⟩
    else
      let r1 := runA (getSt m s).exitAct (Act.exitA s) e x
      match parentOf m s with
      | none => ⟨r1.1, r1.2, hs, hd, false, true⟩
      | some p =>
        let w1 := if hasSh (getSt m p).history then optWrite hs p s else (hs, false)
        let w2 := if hasDp (getSt m p).history then optWrite hd p cur0 else (hd, false)
        let r := exitLoop m e cur0 lca fuel p r1.2 w1.1 w2.1
        ⟨r1.1 ++ r.trace, r.ext, r.hs, r.hd, w1.2 || w2.2 || r.nilWrite, r.crash⟩

/-- The entry loop for j := j; j >= 0; j-- { entry(dstPath[j]) }: enters
the first cnt elements of the path in reverse index order. -/
def enterIdx (m : Machine Ext) (e : Event) (p : List Nat) :
    Nat → Ext → List Act × Ext
  | 0, x => ([], x)
  | k + 1, x =>
    let s := p.getD k 0
    let r1 := runA (getSt m s).entryAct (Act.enterA s) e x
    let r2 := enterIdx m e p k r1.2
    (r1.1 ++ r2.1, r2.2)

/-- The initial-link descent for s != nil; s = s.initial
{ current = s; entry(s) }, shared by Initialize and the settling phase of
Deliver (the two Go loops interleave the current assignment and the entry
call in opposite orders, with identical observable results).  Returns the
trace, the final current, the extended state, and a fuel-exhaustion flag. -/
def descendLoop (m : Machine Ext) (e : Event) :
    Nat → Option Nat → Nat → Ext → List Act × Nat × Ext × Bool
  | _, none, cur, x => ([], cur, x, false)
  | 0, some _, cur, x => ([], cur, x, true)
  | fuel + 1, some s, _, x =>
    let r1 := runA (getSt m s).entryAct (Act.enterA s) e x
    let r2 := descendLoop m e fuel (initialOf m s) s r1.2
    (r1.1 ++ r2.1, r2.2.1, r2.2.2.1, r2.2.2.2)

/-- The deep-history path recomputation
for ; s != tgt; s = s.parent { dstPath = append(dstPath, s) }, collecting
the states strictly below tgt; the flag records the nil dereference that
the Go loop hits when tgt is not an ancestor. -/
def pathUpUntil (m : Machine Ext) (tgt : Nat) : Nat → Nat → List Nat × Bool
  | 0, _ => ([], true)
  | fuel + 1, s =>
    if s = tgt then ([], false)
    else
      match parentOf m s with
      | none => ([s], true)
      | some p =>
        let r := pathUpUntil m tgt fuel p
        (s :: r.1, r.2)

/-- Result of Deliver: the (handled, src) return values, the updated
instance, the action/guard trace and the two panic flags. -/
structure DOut (Ext : Type) where
  handled : Bool
  matchSrc : Option Nat
  inst : Inst Ext
  trace : List Act
  nilWrite : Bool
  crash : Bool

/-- The settling block of Deliver: after dst itself has been entered,
proceed with initial or history transitions if dst is a composite state.
Returns the trace, the final current state, the extended state and a
panic flag (index out of range / nil dereference / fuel). -/
def settlePhase (m : Machine Ext) (e : Event) (thist dst : Nat)
    (hs hd : Option (List (Nat × Nat))) (x : Ext) :
    List Act × Nat × Ext × Bool :=
  if thist = 2 then
    match lookupOpt hd dst with
    | some ld =>
      let pl := pathUpUntil m dst (stN m) ld
      let dn := enterIdx m e pl.1 pl.1.length x
      (dn.1, pl.1.getD 0 0, dn.2, pl.2 || pl.1.isEmpty)
    | none => descendLoop m e (stN m) (initialOf m dst) dst x
  else if thist = 1 then
    let s0 :=
      match lookupOpt hs dst with
      | some c => some c
      | none => initialOf m dst
    descendLoop m e (stN m) s0 dst x
  else descendLoop m e (stN m) (initialOf m dst) dst x

/-- The non-internal part of Deliver once a transition has been matched
at state src (transition index k, guard trace gtr): path construction,
the LCA index scan, the local adjustment, exit phase, transition action,
termination check, entry phase and settling. -/
def deliverMatched (m : Machine Ext) (ins : Inst Ext) (e : Event)
    (cur0 src : Nat) (t : Trans Ext) (gtr : List Act) : DOut Ext :=
  if t.internal then
    let ra := runA t.action Act.actA e ins.ext
    ⟨true, some src, { ins with ext := ra.2 }, gtr ++ ra.1, false, false⟩
  else
    let n := stN m
    let dst := t.target
    let srcPath := upPath m n (some src)
    let dstPath := upPath m n (some dst)
    let p0 := lcaScan srcPath dstPath srcPath.length
      ((srcPath.length : Int) - 2) ((dstPath.length : Int) - 2)
    let lca0 := srcPath.getD (p0.1 + 1).toNat 0
    let lj : Nat × Int :=
      if t.isLocal then (srcPath.getD p0.1.toNat 0, p0.2 - 1)
      else (lca0, p0.2)
    let er := exitLoop m e cur0 lj.1 n cur0 ins.ext ins.historyShallow ins.historyDeep
    let ra := runA t.action Act.actA e er.ext
    if dst = m.terminal then
      ⟨true, some src, ⟨ra.2, none, er.hs, er.hd, ins.initialized⟩,
        gtr ++ er.trace ++ ra.1, er.nilWrite, er.crash⟩
    else
      let en := enterIdx m e dstPath (lj.2 + 1).toNat ra.2
      let st := settlePhase m e t.history dst er.hs er.hd en.2
      ⟨true, some src, ⟨st.2.2.1, some st.2.1, er.hs, er.hd, ins.initialized⟩,
        gtr ++ er.trace ++ ra.1 ++ en.1 ++ st.1, er.nilWrite,
        er.crash || st.2.2.2⟩

/-- Deliver an event, translated from StateMachineInstance.Deliver. -/
def Deliver (m : Machine Ext) (ins : Inst Ext) (e : Event) : DOut Ext :=
  if ins.initialized = false then ⟨false, none, ins, [], false, true⟩
  else
    match ins.current with
    | none => ⟨false, none, ins, [], false, false⟩
    | some cur0 =>
      let sel := getTransitionAux m e ins.ext (stN m) (some cur0)
      match sel.2 with
      | none => ⟨false, none, ins, sel.1, false, false⟩
      | some (src, k) =>
        deliverMatched m ins e cur0 src ((getSt m src).transitions.getD k default) sel.1

/-- Initialize an instance, translated from
StateMachineInstance.Initialize: allocate the history maps for exactly
the history kinds present machine-wide, then drill down from the top
state along initial links running entry actions. -/
def InitializeI (m : Machine Ext) (ins : Inst Ext) (e : Event) :
    Inst Ext × List Act × Bool :=
  if m.topValidated = false then (ins, [], true)
  else
    let hd := if hasDp m.machineHistory then some [] else none
    let hs := if hasSh m.machineHistory then some [] else none
    let r := descendLoop m e (stN m) (some 0) 0 ins.ext
    (⟨r.2.2.1, some r.2.1, hs, hd, true⟩, r.1, r.2.2.2)

/-- Current returns the current (leaf) state, or none once terminated. -/
def Current (ins : Inst Ext) : Option Nat := ins.current

/-! ### Specification-side definitions

The following definitions restate, independently of the loop-and-index
implementation above, the notions the specification's claims speak about:
the first matching transition in leaf-to-root declaration order, proper
ancestors, the deepest common proper ancestor, and the expected
entry/exit emissions along a path. -/

/-- A transition matches a delivered event iff its event id equals the
delivered id and it has no guard or its guard evaluates to true. -/
def matchesB (e : Event) (x : Ext) (t : Trans Ext) : Bool :=
  t.eventId == e.id &&
    (match t.guard with
     | none => true
     | some g => g e x)

/-- Index of the first element of a list satisfying a predicate. -/
def firstIdx (p : α → Bool) : List α → Option Nat
  | [] => none
  | a :: l => if p a then some 0 else (firstIdx p l).map (· + 1)

/-- The claimed selection rule: walk the given state list (the current
leaf's root path, leaf first), and in each state take the first matching
transition in declaration order. -/
def selectSpec (m : Machine Ext) (e : Event) (x : Ext) :
    List Nat → Option (Nat × Nat)
  | [] => none
  | s :: r =>
    match firstIdx (matchesB e x) (getSt m s).transitions with
    | some k => some (s, k)
    | none => selectSpec m e x r

/-- The deepest common proper ancestor of two states: the first state on
s's strict ancestor chain that also lies on d's strict ancestor chain. -/
def dcpa (m : Machine Ext) (s d : Nat) : Option Nat :=
  (anc m s).tail.find? (fun x => decide (x ∈ (anc m d).tail))

/-- The outer one of two states in an ancestor relationship (the shared
ancestor that a local transition must not exit or re-enter). -/
def outerOf (m : Machine Ext) (s d : Nat) : Nat :=
  if d ∈ (anc m s).tail then d else s

/-- Expected trace emission for the exit of a state (present only when
the state has an exit action). -/
def exitEmit (m : Machine Ext) (s : Nat) : Option Act :=
  if (getSt m s).exitAct.isSome then some (Act.exitA s) else none

/-- Expected trace emission for the entry of a state. -/
def entryEmit (m : Machine Ext) (s : Nat) : Option Act :=
  if (getSt m s).entryAct.isSome then some (Act.enterA s) else none

/-- Expected trace of the transition action. -/
def actEmit (t : Trans Ext) : List Act :=
  if t.action.isSome then [Act.actA] else []

/-! ### Basic lemmas about the upward walk -/

theorem runA_fst (f : Option (Event → Ext → Ext)) (lab : Act) (e : Event) (x : Ext) :
    (runA f lab e x).1 = if f.isSome then [lab] else [] := by
  cases f <;> simp [runA]

theorem upPath_length_le (m : Machine Ext) :
    ∀ f o, (upPath m f o).length ≤ f := by
  intro f
  induction f with
  | zero => intro o; cases o <;> simp [upPath]
  | succ f ih =>
    intro o
    cases o with
    | none => simp [upPath]
    | some s =>
      simp only [upPath, List.length_cons]
      exact Nat.succ_le_succ (ih _)

theorem rootedWithin_mono (m : Machine Ext) :
    ∀ {f g s}, rootedWithin m f s = true → f ≤ g → rootedWithin m g s = true := by
  intro f
  induction f with
  | zero => intro g s h; simp [rootedWithin] at h
  | succ f ih =>
    intro g s h hle
    obtain ⟨g, rfl⟩ : ∃ g', g = g' + 1 :=
      ⟨g - 1, by omega⟩
    simp only [rootedWithin] at h ⊢
    cases hp : parentOf m s with
    | none => rfl
    | some p =>
      rw [hp] at h
      exact ih h (by omega)

theorem upPath_stable (m : Machine Ext) :
    ∀ {f g s}, rootedWithin m f s = true → f ≤ g →
      upPath m g (some s) = upPath m f (some s) := by
  intro f
  induction f with
  | zero => intro g s h; simp [rootedWithin] at h
  | succ f ih =>
    intro g s h hle
    obtain ⟨g, rfl⟩ : ∃ g', g = g' + 1 := ⟨g - 1, by omega⟩
    simp only [rootedWithin] at h
    simp only [upPath]
    cases hp : parentOf m s with
    | none => simp [upPath]
    | some p =>
      rw [hp] at h
      rw [ih h (by omega)]

theorem mem_upPath_lt (m : Machine Ext)
    (hb : ∀ s, s < stN m → ∀ p, parentOf m s = some p → p < stN m) :
    ∀ f s x, s < stN m → x ∈ upPath m f (some s) → x < stN m := by
  intro f
  induction f with
  | zero => intro s x _ hx; simp [upPath] at hx
  | succ f ih =>
    intro s x hs hx
    simp only [upPath, List.mem_cons] at hx
    rcases hx with rfl | hx
    · exact hs
    · cases hp : parentOf m s with
      | none => rw [hp] at hx; simp [upPath] at hx
      | some p =>
        rw [hp] at hx
        exact ih p x (hb s hs p hp) hx

theorem rootedWithin_of_mem (m : Machine Ext) :
    ∀ f s x, rootedWithin m f s = true → x ∈ upPath m f (some s) →
      rootedWithin m f x = true := by
  intro f
  induction f with
  | zero => intro s x _ hx; simp [upPath] at hx
  | succ f ih =>
    intro s x hs hx
    simp only [upPath, List.mem_cons] at hx
    rcases hx with rfl | hx
    · exact hs
    · simp only [rootedWithin] at hs
      cases hp : parentOf m s with
      | none => rw [hp] at hx; simp [upPath] at hx
      | some p =>
        rw [hp] at hx
        rw [hp] at hs
        exact rootedWithin_mono m (ih p x hs hx) (by omega)

theorem drop_upPath (m : Machine Ext) :
    ∀ k f s, k < (upPath m f (some s)).length →
      (upPath m f (some s)).drop k =
        upPath m (f - k) (some ((upPath m f (some s)).getD k 0)) := by
  intro k
  induction k with
  | zero =>
    intro f s h
    cases f with
    | zero => simp [upPath] at h
    | succ f => simp [upPath]
  | succ k ih =>
    intro f s h
    cases f with
    | zero => simp [upPath] at h
    | succ f =>
      simp only [upPath, List.length_cons] at h
      simp only [upPath, List.drop_succ_cons, List.getD_cons_succ]
      cases hp : parentOf m s with
      | none => rw [hp] at h; simp [upPath] at h
      | some p =>
        rw [hp] at h
        have := ih f p (by omega)
        simpa [Nat.succ_sub_succ] using this

theorem rooted_drop (m : Machine Ext) :
    ∀ k f s, rootedWithin m f s = true → k < (upPath m f (some s)).length →
      rootedWithin m (f - k) ((upPath m f (some s)).getD k 0) = true := by
  intro k
  induction k with
  | zero =>
    intro f s hr h
    cases f with
    | zero => simp [upPath] at h
    | succ f => simpa [upPath] using hr
  | succ k ih =>
    intro f s hr h
    cases f with
    | zero => simp [upPath] at h
    | succ f =>
      simp only [upPath, List.length_cons] at h
      simp only [upPath, List.getD_cons_succ]
      simp only [rootedWithin] at hr
      cases hp : parentOf m s with
      | none => rw [hp] at h; simp [upPath] at h
      | some p =>
        rw [hp] at hr h
        have := ih f p hr (by omega)
        simpa [Nat.succ_sub_succ] using this

theorem drop_anc (m : Machine Ext) {s : Nat}
    (hr : rootedWithin m (stN m) s = true) {k : Nat}
    (hk : k < (anc m s).length) :
    (anc m s).drop k = anc m ((anc m s).getD k 0) := by
  have h1 := drop_upPath m k (stN m) s hk
  have h2 := rooted_drop m k (stN m) s hr hk
  rw [anc, h1, anc]
  exact (upPath_stable m h2 (Nat.sub_le _ _)).symm

/-! ### Small list helpers -/

theorem mem_iff_getD {l : List Nat} {x : Nat} :
    x ∈ l ↔ ∃ k, k < l.length ∧ l.getD k 0 = x := by
  induction l with
  | nil => simp
  | cons c r ih =>
    constructor
    · intro h
      rcases List.mem_cons.mp h with rfl | h
      · exact ⟨0, by simp, by simp⟩
      · obtain ⟨k, hk, he⟩ := ih.mp h
        exact ⟨k + 1, by simpa using hk, by simpa using he⟩
    · rintro ⟨k, hk, he⟩
      cases k with
      | zero => exact List.mem_cons.mpr (Or.inl he.symm)
      | succ k =>
        simp only [List.getD_cons_succ] at he
        exact List.mem_cons.mpr (Or.inr (ih.mpr ⟨k, by simpa using hk, he⟩))

theorem takeWhile_eq_take_of {l : List Nat} {b : Nat} :
    ∀ {k : Nat}, k < l.length → l.getD k 0 = b →
      (∀ a, a < k → l.getD a 0 ≠ b) →
      l.takeWhile (fun x => x != b) = l.take k := by
  induction l with
  | nil => intro k hk; simp at hk
  | cons c r ih =>
    intro k hk hb hlt
    cases k with
    | zero =>
      simp only [List.getD_cons_zero] at hb
      simp [List.takeWhile_cons, hb]
    | succ k =>
      have hc : (c != b) = true := by
        have := hlt 0 (Nat.succ_pos k)
        simpa using this
      simp only [List.getD_cons_succ] at hb
      rw [List.take_succ_cons, List.takeWhile_cons, if_pos hc]
      rw [ih (by simpa using hk) hb]
      intro a ha
      have := hlt (a + 1) (by omega)
      simpa using this

theorem find?_eq_of {l : List Nat} {p : Nat → Bool} :
    ∀ {k : Nat}, k < l.length → p (l.getD k 0) = true →
      (∀ a, a < k → p (l.getD a 0) = false) →
      l.find? p = some (l.getD k 0) := by
  induction l with
  | nil => intro k hk; simp at hk
  | cons c r ih =>
    intro k hk hp hlt
    cases k with
    | zero =>
      simp only [List.getD_cons_zero] at hp ⊢
      simp [List.find?_cons, hp]
    | succ k =>
      have hc : p c = false := by
        have := hlt 0 (Nat.succ_pos k)
        simpa using this
      simp only [List.getD_cons_succ] at hp ⊢
      rw [List.find?_cons, hc]
      exact ih (by simpa using hk) hp (fun a ha => by simpa using hlt (a + 1) (by omega))

theorem firstIdx_some {p : α → Bool} {d : α} :
    ∀ {l : List α} {k : Nat}, firstIdx p l = some k →
      k < l.length ∧ p (l.getD k d) = true ∧ ∀ a, a < k → p (l.getD a d) = false := by
  intro l
  induction l with
  | nil => intro k h; simp [firstIdx] at h
  | cons c r ih =>
    intro k h
    by_cases hc : p c = true
    · simp [firstIdx, hc] at h
      subst h
      exact ⟨by simp, by simpa using hc, by omega⟩
    · simp only [firstIdx, Bool.not_eq_true] at h hc
      rw [hc, if_neg (by simp)] at h
      cases hr : firstIdx p r with
      | none => rw [hr] at h; simp at h
      | some j =>
        rw [hr] at h
        obtain rfl : j + 1 = k := by simpa using h
        obtain ⟨h1, h2, h3⟩ := ih hr
        refine ⟨by simpa using h1, by simpa using h2, ?_⟩
        intro a ha
        cases a with
        | zero => simpa using hc
        | succ a => simpa using h3 a (by omega)

theorem firstIdx_le {p : α → Bool} {d : α} :
    ∀ {l : List α} {k : Nat}, k < l.length → p (l.getD k d) = true →
      ∃ j, j ≤ k ∧ firstIdx p l = some j := by
  intro l
  induction l with
  | nil => intro k hk; simp at hk
  | cons c r ih =>
    intro k hk hp
    by_cases hc : p c = true
    · exact ⟨0, Nat.zero_le _, by simp [firstIdx, hc]⟩
    · cases k with
      | zero => simp only [List.getD_cons_zero] at hp; exact absurd hp hc
      | succ k =>
        simp only [List.getD_cons_succ] at hp
        obtain ⟨j, hj, he⟩ := ih (by simpa using hk) hp
        refine ⟨j + 1, by omega, ?_⟩
        simp only [firstIdx, Bool.not_eq_true] at hc ⊢
        rw [hc]
        simp [he]

/-! ### Wellformedness of a finalized machine -/

/-- Per-bit inclusion of history bitmasks. -/
def histSub (a b : Nat) : Prop :=
  (hasSh a = true → hasSh b = true) ∧ (hasDp a = true → hasDp b = true)

/-- Structural wellformedness that the builder API and Finalize guarantee
for the machine used at runtime: index 0 is the parentless top state, the
terminal sentinel is parentless, childless and transitionless and is
nobody's parent, parent links stay in range and reach the root, initial
links point to children, transition targets stay in range and never name
the top state, and every state's history bitmask is included in the
machine-wide one. -/
structure WFm (m : Machine Ext) : Prop where
  pos : 0 < stN m
  topPar : parentOf m 0 = none
  topTrans : (getSt m 0).transitions = []
  termLt : m.terminal < stN m
  termPar : parentOf m m.terminal = none
  termTrans : (getSt m m.terminal).transitions = []
  parLt : ∀ s, s < stN m → ∀ p, parentOf m s = some p → p < stN m
  parNone : ∀ s, s < stN m → parentOf m s = none → s = 0 ∨ s = m.terminal
  parNotTerm : ∀ s, s < stN m → parentOf m s ≠ some m.terminal
  childLt : ∀ s, s < stN m → ∀ c ∈ (getSt m s).children, c < stN m
  rootedAll : ∀ s, s < stN m → rootedWithin m (stN m) s = true
  initialMem : ∀ s, s < stN m → ∀ c, initialOf m s = some c →
    c < stN m ∧ parentOf m c = some s ∧ c ∈ (getSt m s).children
  targetLt : ∀ s, s < stN m → ∀ t ∈ (getSt m s).transitions, t.target < stN m
  targetNonTop : ∀ s, s < stN m → ∀ t ∈ (getSt m s).transitions, t.target ≠ 0
  histLe : ∀ s, s < stN m → histSub (getSt m s).history m.machineHistory

/-- The amendment hypothesis for the leaf invariant: every composite
state (everywhere in the tree, not merely at validated entry points) has
an initial sub-state. -/
def EveryInit (m : Machine Ext) : Prop :=
  ∀ s, s < stN m → (getSt m s).children ≠ [] → (initialOf m s).isSome = true

/-! ### Depth (steps to the root) and the initial chain -/

/-- Number of parent steps to reach a parentless state (within fuel). -/
def rsteps (m : Machine Ext) : Nat → Nat → Nat
  | 0, _ => 0
  | f + 1, s =>
    match parentOf m s with
    | none => 0
    | some p => rsteps m f p + 1

theorem rsteps_lt (m : Machine Ext) :
    ∀ {f s}, rootedWithin m f s = true → rsteps m f s < f := by
  intro f
  induction f with
  | zero => intro s h; simp [rootedWithin] at h
  | succ f ih =>
    intro s h
    simp only [rootedWithin] at h
    cases hp : parentOf m s with
    | none => simp [rsteps, hp]
    | some p =>
      rw [hp] at h
      have := ih h
      simp only [rsteps, hp]
      omega

theorem rsteps_stable (m : Machine Ext) :
    ∀ {f g s}, rootedWithin m f s = true → f ≤ g →
      rsteps m g s = rsteps m f s := by
  intro f
  induction f with
  | zero => intro g s h; simp [rootedWithin] at h
  | succ f ih =>
    intro g s h hle
    obtain ⟨g, rfl⟩ : ∃ g', g = g' + 1 := ⟨g - 1, by omega⟩
    simp only [rootedWithin] at h
    cases hp : parentOf m s with
    | none => simp [rsteps, hp]
    | some p =>
      rw [hp] at h
      simp only [rsteps, hp]
      rw [ih h (by omega)]

theorem rsteps_child (m : Machine Ext) (W : WFm m) {c s : Nat}
    (hc : c < stN m) (hp : parentOf m c = some s) :
    rsteps m (stN m) c = rsteps m (stN m) s + 1 := by
  obtain ⟨n, hn⟩ : ∃ n, stN m = n + 1 := ⟨stN m - 1, by have := W.pos; omega⟩
  have hr : rootedWithin m (stN m) c = true := W.rootedAll c hc
  rw [hn] at hr ⊢
  simp only [rootedWithin, hp] at hr
  have hL : rsteps m (n + 1) c = rsteps m n s + 1 := by simp [rsteps, hp]
  rw [hL, rsteps_stable m hr (Nat.le_succ n)]

/-- The chain of states visited by the descent loop along initial links. -/
def iChain (m : Machine Ext) : Nat → Option Nat → List Nat
  | _, none => []
  | 0, some _ => []
  | f + 1, some s => s :: iChain m f (initialOf m s)

/-- Whether the descent loop runs out of fuel (impossible on a tree). -/
def chainCrash (m : Machine Ext) : Nat → Option Nat → Bool
  | _, none => false
  | 0, some _ => true
  | f + 1, some s => chainCrash m f (initialOf m s)

/-- Effect of an entry action on the extended state. -/
def entryApply (m : Machine Ext) (e : Event) (x : Ext) (s : Nat) : Ext :=
  match (getSt m s).entryAct with
  | none => x
  | some g => g e x

theorem descendLoop_spec (m : Machine Ext) (e : Event) :
    ∀ f o cur x, descendLoop m e f o cur x =
      ((iChain m f o).filterMap (entryEmit m),
        (iChain m f o).getLastD cur,
        (iChain m f o).foldl (entryApply m e) x,
        chainCrash m f o) := by
  intro f
  induction f with
  | zero =>
    intro o cur x
    cases o <;> simp [descendLoop, iChain, chainCrash]
  | succ f ih =>
    intro o cur x
    cases o with
    | none => simp [descendLoop, iChain, chainCrash]
    | some s =>
      simp only [descendLoop, iChain, chainCrash, ih, List.filterMap_cons,
        List.getLastD_cons, List.foldl_cons]
      cases hE : (getSt m s).entryAct <;>
        simp [runA, entryEmit, entryApply, hE]

theorem chainCrash_false (m : Machine Ext) (W : WFm m) :
    ∀ f s, s < stN m → stN m - rsteps m (stN m) s ≤ f →
      chainCrash m f (some s) = false := by
  intro f
  induction f with
  | zero =>
    intro s hs hf
    have := rsteps_lt m (W.rootedAll s hs)
    omega
  | succ f ih =>
    intro s hs _
    simp only [chainCrash]
    cases hi : initialOf m s with
    | none => simp [chainCrash]
    | some c =>
      obtain ⟨hc, hp, _⟩ := W.initialMem s hs c hi
      have hr := rsteps_child m W hc hp
      have hlt := rsteps_lt m (W.rootedAll c hc)
      exact ih c hc (by omega)

theorem iChain_last_leaf (m : Machine Ext) (W : WFm m) (EI : EveryInit m) :
    ∀ f s d, chainCrash m f (some s) = false → s < stN m →
      (iChain m f (some s)).getLastD d < stN m ∧
      (getSt m ((iChain m f (some s)).getLastD d)).children = [] := by
  intro f
  induction f with
  | zero => intro s d h; simp [chainCrash] at h
  | succ f ih =>
    intro s d h hs
    simp only [chainCrash] at h
    simp only [iChain, List.getLastD_cons]
    cases hi : initialOf m s with
    | none =>
      rw [hi] at h
      simp only [iChain, List.getLastD_nil]
      refine ⟨hs, ?_⟩
      by_contra hne
      have := EI s hs hne
      simp [hi] at this
    | some c =>
      rw [hi] at h
      obtain ⟨hc, _, _⟩ := W.initialMem s hs c hi
      exact ih c s h hc

theorem mem_iChain_facts (m : Machine Ext) (W : WFm m) :
    ∀ f c x, c < stN m → x ∈ iChain m f (some c) →
      x < stN m ∧ rsteps m (stN m) c ≤ rsteps m (stN m) x := by
  intro f
  induction f with
  | zero => intro c x _ hx; simp [iChain] at hx
  | succ f ih =>
    intro c x hc hx
    simp only [iChain, List.mem_cons] at hx
    rcases hx with rfl | hx
    · exact ⟨hc, Nat.le_refl _⟩
    · cases hi : initialOf m c with
      | none => rw [hi] at hx; simp [iChain] at hx
      | some c' =>
        rw [hi] at hx
        obtain ⟨hc', hp, _⟩ := W.initialMem c hc c' hi
        have hr := rsteps_child m W hc' hp
        have := ih c' x hc' hx
        omega

theorem iChain_nodup (m : Machine Ext) (W : WFm m) :
    ∀ f c, c < stN m → (iChain m f (some c)).Nodup := by
  intro f
  induction f with
  | zero => intro c _; simp [iChain]
  | succ f ih =>
    intro c hc
    simp only [iChain]
    refine List.nodup_cons.mpr ⟨?_, ?_⟩
    · intro hmem
      cases hi : initialOf m c with
      | none => rw [hi] at hmem; simp [iChain] at hmem
      | some c' =>
        rw [hi] at hmem
        obtain ⟨hc', hp, _⟩ := W.initialMem c hc c' hi
        have hr := rsteps_child m W hc' hp
        have := (mem_iChain_facts m W f c' c hc' hmem).2
        omega
    · cases hi : initialOf m c with
      | none => simp [iChain]
      | some c' => exact ih c' (W.initialMem c hc c' hi).1

/-! ### Refinement of getTransition to the first-match rule -/

theorem scanTrans_snd (e : Event) (x : Ext) (s : Nat) :
    ∀ (ts : List (Trans Ext)) (k : Nat),
      (scanTrans e x s ts k).2 = (firstIdx (matchesB e x) ts).map (· + k) := by
  intro ts
  induction ts with
  | nil => intro k; simp [scanTrans, firstIdx]
  | cons t rest ih =>
    intro k
    by_cases hev : t.eventId = e.id
    · cases hg : t.guard with
      | none =>
        have hm : matchesB e x t = true := by simp [matchesB, hev, hg]
        simp [scanTrans, firstIdx, hev, hg, hm]
      | some g =>
        by_cases hgv : g e x = true
        · have hm : matchesB e x t = true := by simp [matchesB, hev, hg, hgv]
          simp [scanTrans, firstIdx, hev, hg, hgv, hm]
        · have hm : matchesB e x t = false := by
            simp only [matchesB, hg]
            simp [hev, hgv]
          simp only [scanTrans, hev, if_true, hg]
          rw [if_neg (by simpa using hgv)]
          simp only [firstIdx, hm]
          rw [if_neg (by simp)]
          rw [ih (k + 1)]
          cases firstIdx (matchesB e x) rest with
          | none => simp
          | some j => simp; omega
    · have hm : matchesB e x t = false := by simp [matchesB, hev]
      simp only [scanTrans, hev, if_false, firstIdx, hm]
      rw [if_neg (by simp)]
      rw [ih (k + 1)]
      cases firstIdx (matchesB e x) rest with
      | none => simp
      | some j => simp; omega

theorem getTransitionAux_snd (m : Machine Ext) (e : Event) (x : Ext) :
    ∀ f o, (getTransitionAux m e x f o).2 = selectSpec m e x (upPath m f o) := by
  intro f
  induction f with
  | zero => intro o; cases o <;> simp [getTransitionAux, upPath, selectSpec]
  | succ f ih =>
    intro o
    cases o with
    | none => simp [getTransitionAux, upPath, selectSpec]
    | some s =>
      have hs := scanTrans_snd e x s (getSt m s).transitions 0
      simp only [upPath, selectSpec]
      cases hsc : scanTrans e x s (getSt m s).transitions 0 with
      | mk tr r =>
        rw [hsc] at hs
        simp only [getTransitionAux, hsc]
        cases hr : firstIdx (matchesB e x) (getSt m s).transitions with
        | none =>
          rw [hr] at hs
          obtain rfl : r = none := by simpa using hs
          simpa using ih (parentOf m s)
        | some k =>
          rw [hr] at hs
          obtain rfl : r = some k := by simpa using hs
          simp

/-! ### Characterization of the LCA index scan -/

theorem getD_drop (l : List α) (i j : Nat) (d : α) :
    (l.drop i).getD j d = l.getD (i + j) d := by
  simp [List.getD_eq_getElem?_getD, List.getElem?_drop]

theorem getD_tail (l : List α) (k : Nat) (d : α) :
    l.tail.getD k d = l.getD (k + 1) d := by
  simp [List.getD_eq_getElem?_getD, List.getElem?_tail]

theorem drop_last_eq (l : List Nat) (h : 1 ≤ l.length) :
    l.drop (l.length - 1) = [l.getD (l.length - 1) 0] := by
  have hlt : l.length - 1 < l.length := by omega
  rw [List.drop_eq_getElem_cons hlt]
  have h2 : l.length - 1 + 1 = l.length := by omega
  rw [h2, List.drop_length, List.getD_eq_getElem l 0 hlt]

theorem lcaScan_inv (A B : List Nat) :
    ∀ (fuel : Nat) (i j i1 j1 : Int),
      0 ≤ i → i.toNat + 1 < A.length → 0 ≤ j → j.toNat + 1 < B.length →
      A.drop (i.toNat + 1) = B.drop (j.toNat + 1) → i < (fuel : Int) →
      lcaScan A B fuel i j = (i1, j1) →
      0 ≤ i1 ∧ i1 ≤ i ∧ 0 ≤ j1 ∧ j1 ≤ j ∧ i - i1 = j - j1 ∧
      A.drop (i1.toNat + 1) = B.drop (j1.toNat + 1) ∧
      (i1 = 0 ∨ j1 = 0 ∨ A.getD i1.toNat 0 ≠ B.getD j1.toNat 0) := by
  intro fuel
  induction fuel with
  | zero =>
    intro i j i1 j1 hi0 _ _ _ _ hfuel _
    exact absurd hfuel (by omega)
  | succ fuel ih =>
    intro i j i1 j1 hi0 hiA hj0 hjB hdrop hfuel heq
    by_cases hc : 0 < i ∧ 0 < j ∧ A.getD i.toNat 0 = B.getD j.toNat 0
    · rw [lcaScan, if_pos hc] at heq
      obtain ⟨hi1, hj1, heqel⟩ := hc
      have hIA : (i - 1).toNat + 1 = i.toNat := by omega
      have hJB : (j - 1).toNat + 1 = j.toNat := by omega
      have hiA' : i.toNat < A.length := by omega
      have hjB' : j.toNat < B.length := by omega
      have hdrop' : A.drop i.toNat = B.drop j.toNat := by
        rw [List.drop_eq_getElem_cons hiA', List.drop_eq_getElem_cons hjB']
        have hhd : A[i.toNat] = B[j.toNat] := by
          rw [← List.getD_eq_getElem A 0 hiA', ← List.getD_eq_getElem B 0 hjB']
          exact heqel
        rw [hhd, hdrop]
      have hrec := ih (i - 1) (j - 1) i1 j1 (by omega) (by omega) (by omega) (by omega)
        (by rw [hIA, hJB]; exact hdrop') (by omega) heq
      obtain ⟨c1, c2, c3, c4, c5, c6, c7⟩ := hrec
      exact ⟨c1, by omega, c3, by omega, by omega, c6, c7⟩
    · rw [lcaScan, if_neg hc] at heq
      obtain ⟨rfl, rfl⟩ : i = i1 ∧ j = j1 := by
        constructor <;> simp [Prod.ext_iff] at heq <;> omega
      refine ⟨hi0, le_refl _, hj0, le_refl _, by omega, hdrop, ?_⟩
      by_cases h1 : i = 0
      · exact Or.inl h1
      by_cases h2 : j = 0
      · exact Or.inr (Or.inl h2)
      refine Or.inr (Or.inr ?_)
      intro hne
      exact hc ⟨by omega, by omega, hne⟩

theorem lcaScan_main (A B : List Nat)
    (hdet : ∀ a b, a < A.length → b < B.length → A.getD a 0 = B.getD b 0 →
      A.drop a = B.drop b)
    (hA : 2 ≤ A.length) (hB : 2 ≤ B.length)
    (hlast : A.getD (A.length - 1) 0 = B.getD (B.length - 1) 0)
    {i1 j1 : Int}
    (heq : lcaScan A B A.length ((A.length : Int) - 2) ((B.length : Int) - 2) =
      (i1, j1)) :
    0 ≤ i1 ∧ 0 ≤ j1 ∧ i1.toNat + 1 < A.length ∧ j1.toNat + 1 < B.length ∧
    B.getD (j1.toNat + 1) 0 = A.getD (i1.toNat + 1) 0 ∧
    A.tail.find? (fun x => decide (x ∈ B.tail)) = some (A.getD (i1.toNat + 1) 0) ∧
    B.take (j1.toNat + 1) = B.takeWhile (fun x => x != A.getD (i1.toNat + 1) 0) := by
  have hi0A : ((A.length : Int) - 2).toNat + 1 = A.length - 1 := by omega
  have hj0B : ((B.length : Int) - 2).toNat + 1 = B.length - 1 := by omega
  have hdrop0 : A.drop (((A.length : Int) - 2).toNat + 1) =
      B.drop (((B.length : Int) - 2).toNat + 1) := by
    rw [hi0A, hj0B, drop_last_eq A (by omega), drop_last_eq B (by omega), hlast]
  have hinv := lcaScan_inv A B A.length ((A.length : Int) - 2) ((B.length : Int) - 2)
    i1 j1 (by omega) (by omega) (by omega) (by omega) hdrop0 (by omega) heq
  obtain ⟨c1, c2, c3, c4, c5, c6, c7⟩ := hinv
  have hIA : i1.toNat + 1 < A.length := by omega
  have hJB : j1.toNat + 1 < B.length := by omega
  have hlen : A.length - (i1.toNat + 1) = B.length - (j1.toNat + 1) := by
    have := congrArg List.length c6
    simpa [List.length_drop] using this
  have hlen2 : A.length + j1.toNat = B.length + i1.toNat := by omega
  have hhead : B.getD (j1.toNat + 1) 0 = A.getD (i1.toNat + 1) 0 := by
    have h0 := congrArg (fun l => l.getD 0 0) c6
    simpa [getD_drop] using h0.symm
  refine ⟨c1, c3, hIA, hJB, hhead, ?_, ?_⟩
  · -- the computed state is the first strict ancestor of A's node on B's strict chain
    have hmemB : (decide (A.getD (i1.toNat + 1) 0 ∈ B.tail)) = true := by
      simp only [decide_eq_true_eq]
      rw [mem_iff_getD]
      refine ⟨j1.toNat, ?_, ?_⟩
      · simp only [List.length_tail]; omega
      · rw [getD_tail]; exact hhead
    have hkey : A.tail.getD i1.toNat 0 = A.getD (i1.toNat + 1) 0 := getD_tail A _ 0
    have := find?_eq_of (l := A.tail) (p := fun x => decide (x ∈ B.tail))
      (k := i1.toNat) (by simp only [List.length_tail]; omega)
      (by rw [hkey]; exact hmemB) ?_
    · rw [hkey] at this; exact this
    · intro a ha
      simp only [decide_eq_false_iff_not]
      intro hmem
      rw [mem_iff_getD] at hmem
      obtain ⟨k, hk, hkeq⟩ := hmem
      simp only [List.length_tail] at hk
      rw [getD_tail, getD_tail] at hkeq
      have hd2 := hdet (a + 1) (k + 1) (by omega) (by omega) hkeq.symm
      have hlen3 : A.length - (a + 1) = B.length - (k + 1) := by
        have := congrArg List.length hd2
        simpa [List.length_drop] using this
      rcases c7 with h0 | h0 | hne
      · omega
      · omega
      · -- paths above the common element coincide, contradicting the mismatch
        apply hne
        have hku : k + 1 + (i1.toNat - (a + 1)) = j1.toNat := by omega
        have hau : a + 1 + (i1.toNat - (a + 1)) = i1.toNat := by omega
        have := congrArg (fun l => l.getD (i1.toNat - (a + 1)) 0) hd2
        simpa [getD_drop, hku, hau] using this
  · -- the entry prefix is exactly the strict-descendant segment below the result
    have hbd : B.getD (j1.toNat + 1) 0 = A.getD (i1.toNat + 1) 0 := hhead
    refine (takeWhile_eq_take_of hJB hbd ?_).symm
    intro a ha hcon
    have hd2 := hdet (i1.toNat + 1) a hIA (by omega) hcon.symm
    have hlen3 : A.length - (i1.toNat + 1) = B.length - a := by
      have := congrArg List.length hd2
      simpa [List.length_drop] using this
    omega

/-! ### Ancestor-path facts on wellformed machines -/

theorem anc_cons (m : Machine Ext) (h : 0 < stN m) (s : Nat) :
    anc m s = s :: upPath m (stN m - 1) (parentOf m s) := by
  obtain ⟨n, hn⟩ : ∃ n, stN m = n + 1 := ⟨stN m - 1, by omega⟩
  rw [anc, hn]
  simp [upPath]

theorem anc_getD_zero (m : Machine Ext) (h : 0 < stN m) (s : Nat) :
    (anc m s).getD 0 0 = s := by
  rw [anc_cons m h s]
  simp

theorem anc_length_pos (m : Machine Ext) (h : 0 < stN m) (s : Nat) :
    0 < (anc m s).length := by
  rw [anc_cons m h s]
  simp

theorem mem_anc_lt (m : Machine Ext) (W : WFm m) {s x : Nat} (hs : s < stN m)
    (hx : x ∈ anc m s) : x < stN m :=
  mem_upPath_lt m W.parLt (stN m) s x hs hx

theorem length_anc_ge2 (m : Machine Ext) (W : WFm m) {s : Nat} (hs : s < stN m)
    (hp0 : s ≠ 0) (hpt : s ≠ m.terminal) : 2 ≤ (anc m s).length := by
  cases hpar : parentOf m s with
  | none => rcases W.parNone s hs hpar with h | h <;> [exact absurd h hp0; exact absurd h hpt]
  | some p =>
    have hn2 : 2 ≤ stN m := by
      rcases Nat.lt_or_ge s 1 with h | h
      · interval_cases s
        · exact absurd rfl hp0
      · omega
    rw [anc_cons m (by omega) s, hpar]
    obtain ⟨n, hn⟩ : ∃ n, stN m - 1 = n + 1 := ⟨stN m - 2, by omega⟩
    rw [hn]
    simp [upPath]

theorem anc_det (m : Machine Ext) (W : WFm m) {s d a b : Nat}
    (hs : s < stN m) (hd : d < stN m)
    (ha : a < (anc m s).length) (hb : b < (anc m d).length)
    (he : (anc m s).getD a 0 = (anc m d).getD b 0) :
    (anc m s).drop a = (anc m d).drop b := by
  rw [drop_anc m (W.rootedAll s hs) ha, drop_anc m (W.rootedAll d hd) hb, he]

theorem anc_parent_step (m : Machine Ext) (W : WFm m) {s k : Nat}
    (hs : s < stN m) (hk : k + 1 < (anc m s).length) :
    parentOf m ((anc m s).getD k 0) = some ((anc m s).getD (k + 1) 0) := by
  have hk0 : k < (anc m s).length := by omega
  have hd1 := drop_anc m (W.rootedAll s hs) hk0
  have hx : (anc m s).getD k 0 < stN m :=
    mem_anc_lt m W hs (mem_iff_getD.mpr ⟨k, hk0, rfl⟩)
  have hlen : (anc m ((anc m s).getD k 0)).length = (anc m s).length - k := by
    rw [← hd1]; simp [List.length_drop]
  have hget1 : (anc m ((anc m s).getD k 0)).getD 1 0 = (anc m s).getD (k + 1) 0 := by
    rw [← hd1, getD_drop]
  rw [anc_cons m (by omega) ((anc m s).getD k 0)] at hlen hget1
  cases hpar : parentOf m ((anc m s).getD k 0) with
  | none =>
    rw [hpar] at hlen
    simp [upPath] at hlen
    omega
  | some q =>
    rw [hpar] at hlen hget1
    obtain ⟨n', hn'⟩ : ∃ n', stN m - 1 = n' + 1 := by
      rcases Nat.eq_zero_or_pos (stN m - 1) with h | h
      · rw [h] at hlen; simp [upPath] at hlen; omega
      · exact ⟨stN m - 1 - 1, by omega⟩
    rw [hn'] at hget1
    simp only [upPath, List.getD_cons_succ, List.getD_cons_zero] at hget1
    rw [hget1]

theorem anc_last_top (m : Machine Ext) (W : WFm m) {s : Nat}
    (hs : s < stN m) (ht : s ≠ m.terminal) :
    (anc m s).getD ((anc m s).length - 1) 0 = 0 := by
  have hpos := anc_length_pos m W.pos s
  have hk0 : (anc m s).length - 1 < (anc m s).length := by omega
  have hd1 := drop_anc m (W.rootedAll s hs) hk0
  have hd2 := drop_last_eq (anc m s) (by omega)
  set x := (anc m s).getD ((anc m s).length - 1) 0 with hxdef
  have hsingle : anc m x = [x] := by rw [← hd1, hd2]
  have hx : x < stN m := mem_anc_lt m W hs (mem_iff_getD.mpr ⟨_, hk0, rfl⟩)
  rw [anc_cons m W.pos x] at hsingle
  have hup : upPath m (stN m - 1) (parentOf m x) = [] := by
    simpa using hsingle
  cases hpar : parentOf m x with
  | some q =>
    rw [hpar] at hup
    obtain ⟨n', hn'⟩ : ∃ n', stN m - 1 = n' + 1 := by
      rcases Nat.eq_zero_or_pos (stN m - 1) with h | h
      · -- a machine with a single state has s = 0 = terminal, contradiction
        exfalso
        have h1 : stN m = 1 := by have := W.pos; omega
        have hs0 : s = 0 := by omega
        have ht0 : m.terminal = 0 := by have := W.termLt; omega
        exact ht (by rw [hs0, ht0])
      · exact ⟨stN m - 1 - 1, by omega⟩
    rw [hn'] at hup
    simp [upPath] at hup
  | none =>
    rcases W.parNone x hx hpar with h | h
    · exact h
    · -- the terminal sentinel cannot occur on a root path
      exfalso
      rcases Nat.eq_zero_or_pos ((anc m s).length - 1) with hL | hL
      · have : x = s := by rw [hxdef, hL, anc_getD_zero m W.pos]
        exact ht (by rw [← this, h])
      · have hstep := anc_parent_step m W hs
          (k := (anc m s).length - 1 - 1) (by omega)
        have hk1 : (anc m s).length - 1 - 1 + 1 = (anc m s).length - 1 := by omega
        rw [hk1] at hstep
        have hy : (anc m s).getD ((anc m s).length - 1 - 1) 0 < stN m :=
          mem_anc_lt m W hs (mem_iff_getD.mpr ⟨_, by omega, rfl⟩)
        exact W.parNotTerm _ hy (by rw [hstep, ← hxdef, h])

theorem mem_anc_trans (m : Machine Ext) (W : WFm m) {c src b : Nat}
    (hc : c < stN m) (hsrc : src ∈ anc m c) (hb : b ∈ anc m src) :
    b ∈ anc m c := by
  obtain ⟨a, ha, hae⟩ := mem_iff_getD.mp hsrc
  have hd1 := drop_anc m (W.rootedAll c hc) ha
  rw [hae] at hd1
  rw [← hd1] at hb
  exact (List.drop_sublist a (anc m c)).subset hb

/-! ### Trace characterizations of the runtime phases -/

theorem exitLoop_trace (m : Machine Ext) (e : Event) (cur0 lca : Nat) :
    ∀ f s x hs hd, lca ∈ upPath m f (some s) →
      (exitLoop m e cur0 lca f s x hs hd).trace =
        ((upPath m f (some s)).takeWhile (fun y => y != lca)).filterMap (exitEmit m) ∧
      (exitLoop m e cur0 lca f s x hs hd).crash = false := by
  intro f
  induction f with
  | zero => intro s x hs hd hmem; simp [upPath] at hmem
  | succ f ih =>
    intro s x hs hd hmem
    by_cases hsl : s = lca
    · subst hsl
      simp [exitLoop, upPath, List.takeWhile_cons]
    · have hmem' : lca ∈ upPath m f (parentOf m s) := by
        simp only [upPath, List.mem_cons] at hmem
        rcases hmem with h | h
        · exact absurd h.symm hsl
        · exact h
      cases hpar : parentOf m s with
      | none => rw [hpar] at hmem'; simp [upPath] at hmem'
      | some p =>
        rw [hpar] at hmem'
        have ihp := ih p (runA (getSt m s).exitAct (Act.exitA s) e x).2
          (if hasSh (getSt m p).history then optWrite hs p s else (hs, false)).1
          (if hasDp (getSt m p).history then optWrite hd p cur0 else (hd, false)).1
          hmem'
        simp only [exitLoop, hpar, if_neg hsl]
        constructor
        · rw [ihp.1]
          have htw : (upPath m (f + 1) (some s)).takeWhile (fun y => y != lca) =
              s :: (upPath m f (some p)).takeWhile (fun y => y != lca) := by
            simp only [upPath, hpar, List.takeWhile_cons]
            rw [if_pos (by simpa using hsl)]
          rw [htw]
          cases hE : (getSt m s).exitAct <;>
            simp [runA, exitEmit, hE]
        · exact ihp.2

theorem enterIdx_trace (m : Machine Ext) (e : Event) (p : List Nat) :
    ∀ cnt x, cnt ≤ p.length →
      (enterIdx m e p cnt x).1 = ((p.take cnt).reverse).filterMap (entryEmit m) := by
  intro cnt
  induction cnt with
  | zero => intro x _; simp [enterIdx]
  | succ k ih =>
    intro x h
    have hk : k < p.length := by omega
    have ht : p.take (k + 1) = p.take k ++ [p.getD k 0] := by
      rw [List.take_succ]
      congr 1
      rw [List.getElem?_eq_getElem hk, List.getD_eq_getElem p 0 hk]
      rfl
    simp only [enterIdx, ht, List.reverse_append, List.reverse_cons, List.reverse_nil,
      List.nil_append, List.singleton_append, List.filterMap_cons]
    rw [ih _ (by omega)]
    set y := p.getD k 0 with hy
    cases hE : (getSt m y).entryAct <;>
      simp [runA, entryEmit, hE]

theorem selectSpec_inv (m : Machine Ext) (e : Event) (x : Ext) :
    ∀ (l : List Nat) (src k : Nat), selectSpec m e x l = some (src, k) →
      src ∈ l ∧ firstIdx (matchesB e x) (getSt m src).transitions = some k := by
  intro l
  induction l with
  | nil => intro src k h; simp [selectSpec] at h
  | cons s r ih =>
    intro src k h
    simp only [selectSpec] at h
    cases hf : firstIdx (matchesB e x) (getSt m s).transitions with
    | some k' =>
      rw [hf] at h
      simp only [Option.some.injEq, Prod.mk.injEq] at h
      obtain ⟨rfl, rfl⟩ := h
      exact ⟨List.mem_cons_self s r, hf⟩
    | none =>
      rw [hf] at h
      obtain ⟨h1, h2⟩ := ih src k h
      exact ⟨List.mem_cons.mpr (Or.inr h1), h2⟩

theorem Deliver_eq_matched (m : Machine Ext) (ins : Inst Ext) (e : Event) {cur0 src k : Nat}
    (hini : ins.initialized = true) (hcur : ins.current = some cur0)
    (hsel : (getTransitionAux m e ins.ext (stN m) (some cur0)).2 = some (src, k)) :
    Deliver m ins e = deliverMatched m ins e cur0 src
      ((getSt m src).transitions.getD k default)
      (getTransitionAux m e ins.ext (stN m) (some cur0)).1 := by
  simp [Deliver, hini, hcur, hsel]

theorem Deliver_no_match (m : Machine Ext) (ins : Inst Ext) (e : Event) {cur0 : Nat}
    (hini : ins.initialized = true) (hcur : ins.current = some cur0)
    (hsel : (getTransitionAux m e ins.ext (stN m) (some cur0)).2 = none) :
    Deliver m ins e =
      ⟨false, none, ins, (getTransitionAux m e ins.ext (stN m) (some cur0)).1,
        false, false⟩ := by
  simp [Deliver, hini, hcur, hsel]

theorem Deliver_terminated (m : Machine Ext) (ins : Inst Ext) (e : Event)
    (hini : ins.initialized = true) (hcur : ins.current = none) :
    Deliver m ins e = ⟨false, none, ins, [], false, false⟩ := by
  simp [Deliver, hini, hcur]

/-- A state on another's root path that still has a parent sits at an
interior position, and its parent is the next path element. -/
theorem mem_anc_parent (m : Machine Ext) (W : WFm m) {c s p : Nat}
    (hc : c < stN m) (hs : s ∈ anc m c) (hp : parentOf m s = some p) :
    ∃ a, a + 1 < (anc m c).length ∧ (anc m c).getD a 0 = s ∧
      (anc m c).getD (a + 1) 0 = p := by
  obtain ⟨a, ha, hae⟩ := mem_iff_getD.mp hs
  rcases Nat.lt_or_ge (a + 1) (anc m c).length with hlt | hge
  · refine ⟨a, hlt, hae, ?_⟩
    have := anc_parent_step m W hc hlt
    rw [hae, hp] at this
    exact (Option.some.injEq _ _ ▸ this.symm)
  · exfalso
    have hd1 := drop_anc m (W.rootedAll c hc) ha
    have hlen : (anc m ((anc m c).getD a 0)).length = (anc m c).length - a := by
      rw [← hd1]; simp [List.length_drop]
    rw [hae, anc_cons m W.pos s, hp] at hlen
    have hone : (upPath m (stN m - 1) (some p)).length = 0 := by
      simp only [List.length_cons] at hlen
      omega
    obtain ⟨n', hn'⟩ : ∃ n', stN m - 1 = n' + 1 := by
      rcases Nat.eq_zero_or_pos (stN m - 1) with h | h
      · exfalso
        have h1 : stN m = 1 := by have := W.pos; omega
        have hs0 : s = 0 := by
          have := mem_anc_lt m W hc hs
          omega
        rw [hs0, W.topPar] at hp
        simp at hp
      · exact ⟨stN m - 1 - 1, by omega⟩
    rw [hn'] at hone
    simp [upPath] at hone

/-- Spec-side repackaging of the non-internal, non-terminating branch of
Deliver: exit up to the boundary, run the action, enter the first cnt
states of the target's root path in reverse, then settle. -/
def deliverAssemble (m : Machine Ext) (ins : Inst Ext) (e : Event) (src : Nat)
    (t : Trans Ext) (gtr : List Act) (bnd cnt cur0 : Nat) : DOut Ext :=
  let er := exitLoop m e cur0 bnd (stN m) cur0 ins.ext ins.historyShallow ins.historyDeep
  let ra := runA t.action Act.actA e er.ext
  let en := enterIdx m e (anc m t.target) cnt ra.2
  let st := settlePhase m e t.history t.target er.hs er.hd en.2
  ⟨true, some src, ⟨st.2.2.1, some st.2.1, er.hs, er.hd, ins.initialized⟩,
    gtr ++ er.trace ++ ra.1 ++ en.1 ++ st.1, er.nilWrite, er.crash || st.2.2.2⟩

/-- Spec-side repackaging of the terminating branch of Deliver. -/
def deliverAssembleTerm (m : Machine Ext) (ins : Inst Ext) (e : Event) (src : Nat)
    (t : Trans Ext) (gtr : List Act) (bnd cur0 : Nat) : DOut Ext :=
  let er := exitLoop m e cur0 bnd (stN m) cur0 ins.ext ins.historyShallow ins.historyDeep
  let ra := runA t.action Act.actA e er.ext
  ⟨true, some src, ⟨ra.2, none, er.hs, er.hd, ins.initialized⟩,
    gtr ++ er.trace ++ ra.1, er.nilWrite, er.crash⟩

theorem deliverMatched_bridge (m : Machine Ext) (ins : Inst Ext) (e : Event)
    (cur0 src : Nat) (t : Trans Ext) (gtr : List Act)
    (hint : t.internal = false) (hterm : t.target ≠ m.terminal)
    {bnd cnt : Nat}
    (hbnd : (if t.isLocal then
        (upPath m (stN m) (some src)).getD
          (lcaScan (upPath m (stN m) (some src)) (upPath m (stN m) (some t.target))
            (upPath m (stN m) (some src)).length
            (((upPath m (stN m) (some src)).length : Int) - 2)
            (((upPath m (stN m) (some t.target)).length : Int) - 2)).1.toNat 0
      else
        (upPath m (stN m) (some src)).getD
          ((lcaScan (upPath m (stN m) (some src)) (upPath m (stN m) (some t.target))
            (upPath m (stN m) (some src)).length
            (((upPath m (stN m) (some src)).length : Int) - 2)
            (((upPath m (stN m) (some t.target)).length : Int) - 2)).1 + 1).toNat 0) = bnd)
    (hcnt : ((if t.isLocal then
        (lcaScan (upPath m (stN m) (some src)) (upPath m (stN m) (some t.target))
          (upPath m (stN m) (some src)).length
          (((upPath m (stN m) (some src)).length : Int) - 2)
          (((upPath m (stN m) (some t.target)).length : Int) - 2)).2 - 1
      else
        (lcaScan (upPath m (stN m) (some src)) (upPath m (stN m) (some t.target))
          (upPath m (stN m) (some src)).length
          (((upPath m (stN m) (some src)).length : Int) - 2)
          (((upPath m (stN m) (some t.target)).length : Int) - 2)).2) + 1).toNat = cnt) :
    deliverMatched m ins e cur0 src t gtr =
      deliverAssemble m ins e src t gtr bnd cnt cur0 := by
  cases hL : t.isLocal with
  | true =>
    rw [hL] at hbnd hcnt
    rw [if_pos rfl] at hbnd
    rw [if_pos rfl] at hcnt
    simp only [deliverMatched, deliverAssemble, hint, Bool.false_eq_true, if_false,
      hL, if_true, anc]
    rw [if_neg hterm, hbnd, hcnt]
  | false =>
    rw [hL] at hbnd hcnt
    rw [if_neg (by simp)] at hbnd
    rw [if_neg (by simp)] at hcnt
    simp only [deliverMatched, deliverAssemble, hint, Bool.false_eq_true, if_false,
      hL, anc]
    rw [if_neg hterm, hbnd, hcnt]

theorem deliverMatched_bridge_term (m : Machine Ext) (ins : Inst Ext) (e : Event)
    (cur0 src : Nat) (t : Trans Ext) (gtr : List Act)
    (hint : t.internal = false) (hloc : t.isLocal = false)
    (hterm : t.target = m.terminal) {bnd : Nat}
    (hbnd : (upPath m (stN m) (some src)).getD
        ((lcaScan (upPath m (stN m) (some src)) (upPath m (stN m) (some t.target))
          (upPath m (stN m) (some src)).length
          (((upPath m (stN m) (some src)).length : Int) - 2)
          (((upPath m (stN m) (some t.target)).length : Int) - 2)).1 + 1).toNat 0 = bnd) :
    deliverMatched m ins e cur0 src t gtr =
      deliverAssembleTerm m ins e src t gtr bnd cur0 := by
  simp only [deliverMatched, deliverAssembleTerm, hint, Bool.false_eq_true, if_false,
    hloc]
  rw [if_pos hterm, hbnd]

/-- Facts about the matched source: it lies on the current leaf's root
path, it has a nonempty transition list (hence is neither the top state
nor the terminal sentinel), and the matched index is in range. -/
theorem matched_src_facts (m : Machine Ext) (W : WFm m) (e : Event) {x : Ext}
    {cur0 src k : Nat} (hc : cur0 < stN m)
    (hsel : (getTransitionAux m e x (stN m) (some cur0)).2 = some (src, k)) :
    src ∈ anc m cur0 ∧ src < stN m ∧ src ≠ 0 ∧ src ≠ m.terminal ∧
    k < (getSt m src).transitions.length ∧
    (getSt m src).transitions.getD k default ∈ (getSt m src).transitions := by
  have hsnd := getTransitionAux_snd m e x (stN m) (some cur0)
  rw [hsel] at hsnd
  have hinv := selectSpec_inv m e x _ src k hsnd.symm
  have hmem : src ∈ anc m cur0 := hinv.1
  have hsS : src < stN m := mem_anc_lt m W hc hmem
  have hkb := (firstIdx_some (d := (default : Trans Ext)) hinv.2).1
  have hs0 : src ≠ 0 := by
    intro h
    rw [h, W.topTrans] at hkb
    simp at hkb
  have hsT : src ≠ m.terminal := by
    intro h
    rw [h, W.termTrans] at hkb
    simp at hkb
  refine ⟨hmem, hsS, hs0, hsT, hkb, ?_⟩
  have hgd : (getSt m src).transitions.getD k default =
      (getSt m src).transitions[k] := List.getD_eq_getElem _ _ hkb
  rw [hgd]
  exact List.getElem_mem hkb

theorem anc_terminal (m : Machine Ext) (W : WFm m) :
    anc m m.terminal = [m.terminal] := by
  rw [anc_cons m W.pos, W.termPar]
  simp [upPath]

theorem upPath_eq_anc (m : Machine Ext) (s : Nat) :
    upPath m (stN m) (some s) = anc m s := rfl

/-- The external decomposition: a matched non-internal, non-local
transition to a non-terminal target executes the assembled pipeline with
the deepest common proper ancestor of source and target as boundary. -/
theorem deliver_external_decomp (m : Machine Ext) (ins : Inst Ext) (e : Event)
    {cur0 src k : Nat} {t : Trans Ext} (W : WFm m)
    (hini : ins.initialized = true) (hcur : ins.current = some cur0)
    (hc : cur0 < stN m)
    (hsel : (getTransitionAux m e ins.ext (stN m) (some cur0)).2 = some (src, k))
    (ht : (getSt m src).transitions.getD k default = t)
    (hint : t.internal = false) (hloc : t.isLocal = false)
    (hterm : t.target ≠ m.terminal) :
    ∃ b, dcpa m src t.target = some b ∧ b ∈ anc m cur0 ∧
      b ∈ (anc m src).tail ∧ b ∈ (anc m t.target).tail ∧
      Deliver m ins e =
        deliverAssemble m ins e src t
          (getTransitionAux m e ins.ext (stN m) (some cur0)).1
          b ((anc m t.target).takeWhile (fun y => y != b)).length cur0 := by
  obtain ⟨hmem, hsS, hs0, hsT, hkb, hmt⟩ := matched_src_facts m W e hc hsel
  rw [ht] at hmt
  have hdS := W.targetLt src hsS t hmt
  have hd0 := W.targetNonTop src hsS t hmt
  obtain ⟨i1, j1, heq⟩ : ∃ i1 j1,
      lcaScan (anc m src) (anc m t.target) (anc m src).length
        (((anc m src).length : Int) - 2) (((anc m t.target).length : Int) - 2) =
        (i1, j1) := ⟨_, _, rfl⟩
  have hA2 := length_anc_ge2 m W hsS hs0 hsT
  have hB2 := length_anc_ge2 m W hdS hd0 hterm
  have hmain := lcaScan_main (anc m src) (anc m t.target)
    (fun a b ha hb he => anc_det m W hsS hdS ha hb he) hA2 hB2
    (by rw [anc_last_top m W hsS hsT, anc_last_top m W hdS hterm]) heq
  obtain ⟨c1, c2, c3, c4, c5, c6, c7⟩ := hmain
  have hbtail : (anc m src).getD (i1.toNat + 1) 0 ∈ (anc m src).tail :=
    List.mem_of_find?_eq_some c6
  have hbtailB : (anc m src).getD (i1.toNat + 1) 0 ∈ (anc m t.target).tail := by
    have := List.find?_some c6
    simpa using this
  refine ⟨(anc m src).getD (i1.toNat + 1) 0, ?_, ?_, hbtail, hbtailB, ?_⟩
  · rw [dcpa]; exact c6
  · exact mem_anc_trans m W hc hmem (List.mem_of_mem_tail hbtail)
  · rw [Deliver_eq_matched m ins e hini hcur hsel, ht]
    have hequ := heq
    simp only [anc] at hequ
    apply deliverMatched_bridge m ins e cur0 src t _ hint hterm
    · rw [hloc, if_neg (by simp), hequ]
      simp only [upPath_eq_anc]
      congr 1
      omega
    · rw [hloc, if_neg (by simp), hequ]
      have hlen : ((anc m t.target).takeWhile
          (fun y => y != (anc m src).getD (i1.toNat + 1) 0)).length = j1.toNat + 1 := by
        rw [← c7]
        have hmin : j1.toNat + 1 ≤ (anc m t.target).length := by omega
        simp [List.length_take]
        omega
      rw [hlen]
      omega

/-- The local decomposition: a matched local transition (source and
target in an ancestor relationship) executes the same pipeline with the
outer of the two states as boundary, so that state is neither exited nor
re-entered. -/
theorem deliver_local_decomp (m : Machine Ext) (ins : Inst Ext) (e : Event)
    {cur0 src k : Nat} {t : Trans Ext} (W : WFm m)
    (hini : ins.initialized = true) (hcur : ins.current = some cur0)
    (hc : cur0 < stN m)
    (hsel : (getTransitionAux m e ins.ext (stN m) (some cur0)).2 = some (src, k))
    (ht : (getSt m src).transitions.getD k default = t)
    (hint : t.internal = false) (hloc : t.isLocal = true)
    (hterm : t.target ≠ m.terminal)
    (hanc : src ∈ (anc m t.target).tail ∨ t.target ∈ (anc m src).tail) :
    outerOf m src t.target ∈ anc m cur0 ∧
      Deliver m ins e =
        deliverAssemble m ins e src t
          (getTransitionAux m e ins.ext (stN m) (some cur0)).1
          (outerOf m src t.target)
          ((anc m t.target).takeWhile (fun y => y != outerOf m src t.target)).length
          cur0 := by
  obtain ⟨hmem, hsS, hs0, hsT, hkb, hmt⟩ := matched_src_facts m W e hc hsel
  rw [ht] at hmt
  have hdS := W.targetLt src hsS t hmt
  have hd0 := W.targetNonTop src hsS t hmt
  obtain ⟨i1, j1, heq⟩ : ∃ i1 j1,
      lcaScan (anc m src) (anc m t.target) (anc m src).length
        (((anc m src).length : Int) - 2) (((anc m t.target).length : Int) - 2) =
        (i1, j1) := ⟨_, _, rfl⟩
  have hA2 := length_anc_ge2 m W hsS hs0 hsT
  have hB2 := length_anc_ge2 m W hdS hd0 hterm
  have hlastA := anc_last_top m W hsS hsT
  have hlastB := anc_last_top m W hdS hterm
  have hdrop0 : (anc m src).drop ((((anc m src).length : Int) - 2).toNat + 1) =
      (anc m t.target).drop ((((anc m t.target).length : Int) - 2).toNat + 1) := by
    have h1 : (((anc m src).length : Int) - 2).toNat + 1 = (anc m src).length - 1 := by
      omega
    have h2 : (((anc m t.target).length : Int) - 2).toNat + 1 =
        (anc m t.target).length - 1 := by omega
    rw [h1, h2, drop_last_eq _ (by omega), drop_last_eq _ (by omega), hlastA, hlastB]
  have hinv := lcaScan_inv (anc m src) (anc m t.target) (anc m src).length
    (((anc m src).length : Int) - 2) (((anc m t.target).length : Int) - 2) i1 j1
    (by omega) (by omega) (by omega) (by omega) hdrop0 (by omega) heq
  obtain ⟨d1, d2, d3, d4, d5, d6, d7⟩ := hinv
  have hlen6 : (anc m src).length - (i1.toNat + 1) =
      (anc m t.target).length - (j1.toNat + 1) := by
    have := congrArg List.length d6
    simpa [List.length_drop] using this
  have hlen2 : (anc m src).length + j1.toNat = (anc m t.target).length + i1.toNat := by
    omega
  rcases hanc with hsrctail | hdsttail
  · -- src strictly inside dst: the boundary is src itself and no entries run
    obtain ⟨b', hb', hbe⟩ := mem_iff_getD.mp hsrctail
    simp only [List.length_tail] at hb'
    rw [getD_tail] at hbe
    have hget0 : (anc m src).getD 0 0 = (anc m t.target).getD (b' + 1) 0 := by
      rw [anc_getD_zero m W.pos, hbe]
    have hdet := anc_det m W hsS hdS (a := 0) (b := b' + 1) (by omega) (by omega) hget0
    simp only [List.drop_zero] at hdet
    have hlenr : (anc m src).length = (anc m t.target).length - (b' + 1) := by
      have := congrArg List.length hdet
      simpa [List.length_drop] using this
    have hnd : t.target ∉ (anc m src).tail := by
      intro hmem2
      obtain ⟨a', ha', hae⟩ := mem_iff_getD.mp hmem2
      simp only [List.length_tail] at ha'
      rw [getD_tail] at hae
      have hget0' : (anc m src).getD (a' + 1) 0 = (anc m t.target).getD 0 0 := by
        rw [hae, anc_getD_zero m W.pos]
      have hdet' := anc_det m W hsS hdS (a := a' + 1) (b := 0) (by omega) (by omega) hget0'
      simp only [List.drop_zero] at hdet'
      have := congrArg List.length hdet'
      simp only [List.length_drop] at this
      omega
    have hi10 : i1 = 0 := by
      rcases d7 with h | h | h
      · exact h
      · exfalso; omega
      · exfalso
        apply h
        have := congrArg (fun l => l.getD i1.toNat 0) hdet
        simp only [getD_drop] at this
        rw [this]
        congr 1
        omega
    have hJ : j1.toNat = b' + 1 := by omega
    have houter : outerOf m src t.target = src := by rw [outerOf, if_neg hnd]
    have hbnd0 : (anc m src).getD i1.toNat 0 = src := by
      rw [hi10]
      simpa using anc_getD_zero m W.pos src
    have htake : (anc m t.target).takeWhile (fun y => y != src) =
        (anc m t.target).take (b' + 1) := by
      refine takeWhile_eq_take_of (by omega) hbe ?_
      intro a ha hcon
      have hdet2 := anc_det m W hdS hdS (a := a) (b := b' + 1) (by omega) (by omega)
        (by rw [hcon, hbe])
      have := congrArg List.length hdet2
      simp only [List.length_drop] at this
      omega
    refine ⟨by rw [houter]; exact hmem, ?_⟩
    rw [Deliver_eq_matched m ins e hini hcur hsel, ht]
    have hequ := heq
    simp only [anc] at hequ
    apply deliverMatched_bridge m ins e cur0 src t _ hint hterm
    · rw [hloc, if_pos rfl, hequ]
      simp only [upPath_eq_anc]
      rw [hbnd0, houter]
    · rw [hloc, if_pos rfl, hequ]
      simp only [upPath_eq_anc]
      rw [houter, htake]
      have hmin : b' + 1 ≤ (anc m t.target).length := by omega
      simp [List.length_take]
      omega
  · -- dst is an ancestor of src: the boundary is dst and no entries run
    obtain ⟨a', ha', hae⟩ := mem_iff_getD.mp hdsttail
    simp only [List.length_tail] at ha'
    rw [getD_tail] at hae
    have hget0 : (anc m src).getD (a' + 1) 0 = (anc m t.target).getD 0 0 := by
      rw [hae, anc_getD_zero m W.pos]
    have hdet := anc_det m W hsS hdS (a := a' + 1) (b := 0) (by omega) (by omega) hget0
    simp only [List.drop_zero] at hdet
    have hlenr : (anc m src).length - (a' + 1) = (anc m t.target).length := by
      have := congrArg List.length hdet
      simpa [List.length_drop] using this
    have hj10 : j1 = 0 := by
      rcases d7 with h | h | h
      · exfalso; omega
      · exact h
      · exfalso
        apply h
        have := congrArg (fun l => l.getD j1.toNat 0) hdet
        simp only [getD_drop] at this
        rw [← this]
        congr 1
        omega
    have hI : i1.toNat = a' + 1 := by omega
    have houter : outerOf m src t.target = t.target := by
      rw [outerOf, if_pos hdsttail]
    have hbnd0 : (anc m src).getD i1.toNat 0 = t.target := by rw [hI, hae]
    have htake : (anc m t.target).takeWhile (fun y => y != t.target) = [] := by
      rw [anc_cons m W.pos t.target, List.takeWhile_cons]
      simp
    refine ⟨?_, ?_⟩
    · rw [houter]
      exact mem_anc_trans m W hc hmem (List.mem_of_mem_tail hdsttail)
    rw [Deliver_eq_matched m ins e hini hcur hsel, ht]
    have hequ := heq
    simp only [anc] at hequ
    apply deliverMatched_bridge m ins e cur0 src t _ hint hterm
    · rw [hloc, if_pos rfl, hequ]
      simp only [upPath_eq_anc]
      rw [hbnd0, houter]
    · rw [hloc, if_pos rfl, hequ]
      rw [houter, htake]
      simp
      omega

/-- The terminating decomposition: a matched transition to the terminal
sentinel exits everything up to (excluding) the top state, runs the
action, and terminates the instance without any entry phase. -/
theorem deliver_terminal_decomp (m : Machine Ext) (ins : Inst Ext) (e : Event)
    {cur0 src k : Nat} {t : Trans Ext} (W : WFm m)
    (hini : ins.initialized = true) (hcur : ins.current = some cur0)
    (hc : cur0 < stN m)
    (hsel : (getTransitionAux m e ins.ext (stN m) (some cur0)).2 = some (src, k))
    (ht : (getSt m src).transitions.getD k default = t)
    (hint : t.internal = false) (hloc : t.isLocal = false)
    (hterm : t.target = m.terminal) :
    0 ∈ anc m cur0 ∧
      Deliver m ins e =
        deliverAssembleTerm m ins e src t
          (getTransitionAux m e ins.ext (stN m) (some cur0)).1 0 cur0 := by
  obtain ⟨hmem, hsS, hs0, hsT, hkb, hmt⟩ := matched_src_facts m W e hc hsel
  have hA2 := length_anc_ge2 m W hsS hs0 hsT
  have hBterm : anc m t.target = [m.terminal] := by rw [hterm]; exact anc_terminal m W
  have hB1 : (anc m t.target).length = 1 := by rw [hBterm]; rfl
  have hscan : lcaScan (anc m src) (anc m t.target) (anc m src).length
      (((anc m src).length : Int) - 2) (((anc m t.target).length : Int) - 2) =
      (((anc m src).length : Int) - 2, ((anc m t.target).length : Int) - 2) := by
    obtain ⟨f, hf⟩ : ∃ f, (anc m src).length = f + 1 := ⟨(anc m src).length - 1, by omega⟩
    rw [hf]
    simp only [lcaScan]
    rw [if_neg]
    rintro ⟨-, h2, -⟩
    rw [hB1] at h2
    omega
  have hzero : 0 ∈ anc m cur0 := by
    apply mem_anc_trans m W hc hmem
    rw [mem_iff_getD]
    exact ⟨(anc m src).length - 1, by omega, anc_last_top m W hsS hsT⟩
  refine ⟨hzero, ?_⟩
  rw [Deliver_eq_matched m ins e hini hcur hsel, ht]
  have hscu := hscan
  simp only [anc] at hscu
  apply deliverMatched_bridge_term m ins e cur0 src t _ hint hloc hterm
  rw [hscu]
  simp only [upPath_eq_anc]
  have hidx : ((((anc m src).length : Int) - 2) + 1).toNat = (anc m src).length - 1 := by
    omega
  rw [hidx]
  exact anc_last_top m W hsS hsT

theorem take_length_takeWhile (l : List Nat) (p : Nat → Bool) :
    l.take (l.takeWhile p).length = l.takeWhile p :=
  (List.prefix_iff_eq_take.mp (List.takeWhile_prefix p)).symm

/-- Common projection of the assembled pipeline: handled, matched source,
and the trace through the end of the entry phase (the settling trace is
existentially bound). -/
theorem deliverAssemble_trace (m : Machine Ext) (ins : Inst Ext) (e : Event)
    (src : Nat) (t : Trans Ext) (gtr : List Act) {bnd cur0 : Nat}
    (hbmem : bnd ∈ anc m cur0) :
    (deliverAssemble m ins e src t gtr bnd
        ((anc m t.target).takeWhile (fun y => y != bnd)).length cur0).handled = true ∧
    (deliverAssemble m ins e src t gtr bnd
        ((anc m t.target).takeWhile (fun y => y != bnd)).length cur0).matchSrc =
      some src ∧
    ∃ rest,
      (deliverAssemble m ins e src t gtr bnd
          ((anc m t.target).takeWhile (fun y => y != bnd)).length cur0).trace =
        gtr ++ ((anc m cur0).takeWhile (fun y => y != bnd)).filterMap (exitEmit m) ++
        actEmit t ++
        (((anc m t.target).takeWhile (fun y => y != bnd)).reverse).filterMap
          (entryEmit m) ++ rest := by
  have hex := exitLoop_trace m e cur0 bnd (stN m) cur0 ins.ext
    ins.historyShallow ins.historyDeep hbmem
  have hra : ∀ x : Ext, (runA t.action Act.actA e x).1 = actEmit t := by
    intro x
    rw [runA_fst, actEmit]
  have hcnt : ((anc m t.target).takeWhile (fun y => y != bnd)).length ≤
      (anc m t.target).length :=
    (List.takeWhile_prefix _).length_le
  have hen : ∀ x : Ext,
      (enterIdx m e (anc m t.target)
        ((anc m t.target).takeWhile (fun y => y != bnd)).length x).1 =
      (((anc m t.target).takeWhile (fun y => y != bnd)).reverse).filterMap
        (entryEmit m) := by
    intro x
    rw [enterIdx_trace m e (anc m t.target) _ x hcnt, take_length_takeWhile]
  refine ⟨rfl, rfl, ?_⟩
  refine ⟨(settlePhase m e t.history t.target
    (exitLoop m e cur0 bnd (stN m) cur0 ins.ext ins.historyShallow ins.historyDeep).hs
    (exitLoop m e cur0 bnd (stN m) cur0 ins.ext ins.historyShallow ins.historyDeep).hd
    (enterIdx m e (anc m t.target)
      ((anc m t.target).takeWhile (fun y => y != bnd)).length
      (runA t.action Act.actA e
        (exitLoop m e cur0 bnd (stN m) cur0 ins.ext ins.historyShallow
          ins.historyDeep).ext).2).2).1, ?_⟩
  simp only [deliverAssemble]
  rw [hex.1, hra, hen]
  simp [List.append_assoc, upPath_eq_anc]

/-! ### Claim theorems C2, C3, C4, C9 -/

/-- C2 (amended): for every initialized instance and matched external
(non-internal, non-local) transition to a non-terminal target, Deliver
invokes exit actions for exactly the nodes on the path from the current
leaf up to but excluding the deepest common proper ancestor of the
matched source and the target (which is the LCA when neither contains
the other, and the parent of the outer one otherwise), leaf-to-root;
then the transition's action exactly once; then entry actions for
exactly the nodes from just below that boundary down to the target,
root-to-leaf, before any settling below the target. -/
theorem c2_external_exit_entry_order (m : Machine Ext) (ins : Inst Ext) (e : Event)
    {cur0 src k : Nat} {t : Trans Ext} {b : Nat} (W : WFm m)
    (hini : ins.initialized = true) (hcur : ins.current = some cur0)
    (hc : cur0 < stN m)
    (hsel : (getTransitionAux m e ins.ext (stN m) (some cur0)).2 = some (src, k))
    (ht : (getSt m src).transitions.getD k default = t)
    (hint : t.internal = false) (hloc : t.isLocal = false)
    (hterm : t.target ≠ m.terminal)
    (hb : dcpa m src t.target = some b) :
    (Deliver m ins e).handled = true ∧
    (Deliver m ins e).matchSrc = some src ∧
    ∃ rest,
      (Deliver m ins e).trace =
        (getTransitionAux m e ins.ext (stN m) (some cur0)).1 ++
        ((anc m cur0).takeWhile (fun y => y != b)).filterMap (exitEmit m) ++
        actEmit t ++
        (((anc m t.target).takeWhile (fun y => y != b)).reverse).filterMap
          (entryEmit m) ++ rest := by
  obtain ⟨b', hb', hbcur, _, _, hDel⟩ :=
    deliver_external_decomp m ins e W hini hcur hc hsel ht hint hloc hterm
  obtain rfl : b' = b := by rw [hb'] at hb; simpa using hb
  rw [hDel]
  exact deliverAssemble_trace m ins e src t _ hbcur

/-- C3: transition selection walks from the current leaf upward through
ancestors, scanning each state's transition list in declaration order;
a transition matches iff its event id equals the delivered id and its
guard is absent or true; the first match wins, so a guarded transition
declared after an unguarded one with the same event id on the same state
is never selected; with no match, Deliver reports not-handled and leaves
the instance unchanged. -/
theorem c3_selection_first_match (m : Machine Ext) (ins : Inst Ext) (e : Event)
    {cur0 : Nat}
    (hini : ins.initialized = true) (hcur : ins.current = some cur0) :
    (getTransitionAux m e ins.ext (stN m) (some cur0)).2 =
      selectSpec m e ins.ext (anc m cur0) ∧
    (selectSpec m e ins.ext (anc m cur0) = none →
      (Deliver m ins e).handled = false ∧ (Deliver m ins e).inst = ins) ∧
    (∀ s a b, a < b → b < (getSt m s).transitions.length →
      ((getSt m s).transitions.getD a default).guard = none →
      ((getSt m s).transitions.getD a default).eventId =
        ((getSt m s).transitions.getD b default).eventId →
      selectSpec m e ins.ext (anc m cur0) ≠ some (s, b)) := by
  have hsnd := getTransitionAux_snd m e ins.ext (stN m) (some cur0)
  refine ⟨hsnd, ?_, ?_⟩
  · intro hnone
    have hsel : (getTransitionAux m e ins.ext (stN m) (some cur0)).2 = none := by
      rw [hsnd]; exact hnone
    rw [Deliver_no_match m ins e hini hcur hsel]
    exact ⟨rfl, rfl⟩
  · intro s a b hab hb hga hev hcon
    obtain ⟨hmem, hfi⟩ := selectSpec_inv m e ins.ext _ s b hcon
    obtain ⟨hblen, hbm, hprev⟩ := firstIdx_some (d := (default : Trans Ext)) hfi
    have hma := hprev a hab
    rw [matchesB, hga] at hma
    simp only [Bool.and_eq_false_iff] at hma
    rcases hma with hma | hma
    · rw [matchesB] at hbm
      simp only [Bool.and_eq_true, beq_iff_eq] at hbm
      rw [hev, hbm.1] at hma
      simp at hma
    · simp at hma

/-- C4: a matched transition targeting the terminal sentinel executes the
exit phase (everything up to but excluding the top state) and the
transition action, no entry phase, sets current to terminated and
reports handled; afterwards every Deliver on a terminated instance
returns not-handled immediately, with no guard, action, entry or exit
evaluations and with the instance unchanged. -/
theorem c4_terminal_transition (m : Machine Ext) (ins : Inst Ext) (e : Event)
    {cur0 src k : Nat} {t : Trans Ext} (W : WFm m)
    (hini : ins.initialized = true) (hcur : ins.current = some cur0)
    (hc : cur0 < stN m)
    (hsel : (getTransitionAux m e ins.ext (stN m) (some cur0)).2 = some (src, k))
    (ht : (getSt m src).transitions.getD k default = t)
    (hint : t.internal = false) (hloc : t.isLocal = false)
    (hterm : t.target = m.terminal) :
    (Deliver m ins e).handled = true ∧
    (Deliver m ins e).inst.current = none ∧
    (Deliver m ins e).trace =
      (getTransitionAux m e ins.ext (stN m) (some cur0)).1 ++
      ((anc m cur0).takeWhile (fun y => y != 0)).filterMap (exitEmit m) ++
      actEmit t ∧
    (∀ (ins2 : Inst Ext) (e2 : Event), ins2.initialized = true →
      ins2.current = none →
      Deliver m ins2 e2 = ⟨false, none, ins2, [], false, false⟩) := by
  obtain ⟨hzero, hDel⟩ :=
    deliver_terminal_decomp m ins e W hini hcur hc hsel ht hint hloc hterm
  have hex := exitLoop_trace m e cur0 0 (stN m) cur0 ins.ext
    ins.historyShallow ins.historyDeep hzero
  rw [hDel]
  refine ⟨rfl, rfl, ?_, ?_⟩
  · simp only [deliverAssembleTerm]
    rw [hex.1, runA_fst, actEmit, upPath_eq_anc]
  · intro ins2 e2 h1 h2
    exact Deliver_terminated m ins2 e2 h1 h2

/-- Translated from State.Transition: a nil target parameter denotes the
machine's terminal sentinel state. -/
def resolveTarget (m : Machine Ext) (tgt : Option Nat) : Nat :=
  match tgt with
  | none => m.terminal
  | some s => s

/-- C9: building a transition with a nil target resolves it to the
terminal sentinel, and delivering a matching event to an initialized
instance terminates the machine: Deliver reports handled and Current
subsequently reports terminated (none). -/
theorem c9_nil_target_terminates (m : Machine Ext) (ins : Inst Ext) (e : Event)
    {cur0 src k : Nat} {t : Trans Ext} (W : WFm m)
    (hini : ins.initialized = true) (hcur : ins.current = some cur0)
    (hc : cur0 < stN m)
    (hsel : (getTransitionAux m e ins.ext (stN m) (some cur0)).2 = some (src, k))
    (ht : (getSt m src).transitions.getD k default = t)
    (hint : t.internal = false) (hloc : t.isLocal = false)
    (htgt : t.target = resolveTarget m none) :
    resolveTarget m none = m.terminal ∧
    (Deliver m ins e).handled = true ∧
    Current (Deliver m ins e).inst = none := by
  have hres : resolveTarget m none = m.terminal := rfl
  obtain ⟨_, hDel⟩ := deliver_terminal_decomp m ins e W hini hcur hc hsel ht hint hloc
    (by rw [htgt, hres])
  rw [hDel]
  exact ⟨hres, rfl, rfl⟩

/-! ### History-map invariants and the settling phase -/

/-- Invariant of the shallow-history map: every recorded value is a state
whose parent is the key. -/
def ShInv (m : Machine Ext) (mp : Option (List (Nat × Nat))) : Prop :=
  ∀ l, mp = some l → ∀ kv ∈ l, kv.2 < stN m ∧ parentOf m kv.2 = some kv.1

/-- Invariant of the deep-history map: every recorded value is a leaf
strictly below the key. -/
def DpInv (m : Machine Ext) (mp : Option (List (Nat × Nat))) : Prop :=
  ∀ l, mp = some l → ∀ kv ∈ l,
    kv.2 < stN m ∧ (getSt m kv.2).children = [] ∧ kv.1 ∈ (anc m kv.2).tail

theorem lookupOpt_mem {mp : Option (List (Nat × Nat))} {k v : Nat}
    (h : lookupOpt mp k = some v) : ∃ l, mp = some l ∧ (k, v) ∈ l := by
  cases mp with
  | none => simp [lookupOpt] at h
  | some l =>
    simp only [lookupOpt, mapLookup] at h
    cases hf : l.find? (fun p => p.1 == k) with
    | none => rw [hf] at h; simp at h
    | some pr =>
      rw [hf] at h
      obtain ⟨a, b⟩ := pr
      have hmem := List.mem_of_find?_eq_some hf
      have hk := List.find?_some hf
      simp only [beq_iff_eq] at hk
      have hv : b = v := by simpa using h
      refine ⟨l, rfl, ?_⟩
      rw [← hk, ← hv]
      exact hmem

theorem rsteps_getD_anc (m : Machine Ext) (W : WFm m) {x : Nat} (hx : x < stN m) :
    ∀ a, a < (anc m x).length →
      rsteps m (stN m) ((anc m x).getD a 0) + a = rsteps m (stN m) x := by
  intro a
  induction a with
  | zero =>
    intro _
    rw [anc_getD_zero m W.pos]
    omega
  | succ a ih =>
    intro ha
    have hstep := anc_parent_step m W hx (k := a) ha
    have hlt : (anc m x).getD a 0 < stN m :=
      mem_anc_lt m W hx (mem_iff_getD.mpr ⟨a, by omega, rfl⟩)
    have hchild := rsteps_child m W hlt hstep
    have := ih (by omega)
    omega

theorem rsteps_tail_lt (m : Machine Ext) (W : WFm m) {x y : Nat}
    (hx : x < stN m) (hy : y ∈ (anc m x).tail) :
    rsteps m (stN m) y < rsteps m (stN m) x := by
  obtain ⟨a, ha, hae⟩ := mem_iff_getD.mp hy
  simp only [List.length_tail] at ha
  rw [getD_tail] at hae
  have := rsteps_getD_anc m W hx (a + 1) (by omega)
  rw [hae] at this
  omega

theorem getD_take (l : List Nat) (n i : Nat) (h : i < (l.take n).length) :
    (l.take n).getD i 0 = l.getD i 0 := by
  have h2 : i < l.length := by
    simp only [List.length_take] at h
    omega
  rw [List.getD_eq_getElem _ 0 h, List.getD_eq_getElem _ 0 h2]
  simp

theorem pathUpUntil_spec (m : Machine Ext) (dst : Nat) :
    ∀ f s, dst ∈ upPath m f (some s) →
      pathUpUntil m dst f s =
        ((upPath m f (some s)).takeWhile (fun y => y != dst), false) := by
  intro f
  induction f with
  | zero => intro s hmem; simp [upPath] at hmem
  | succ f ih =>
    intro s hmem
    by_cases hsd : s = dst
    · subst hsd
      simp [pathUpUntil, upPath, List.takeWhile_cons]
    · have hmem' : dst ∈ upPath m f (parentOf m s) := by
        simp only [upPath, List.mem_cons] at hmem
        rcases hmem with h | h
        · exact absurd h.symm hsd
        · exact h
      cases hpar : parentOf m s with
      | none => rw [hpar] at hmem'; simp [upPath] at hmem'
      | some p =>
        rw [hpar] at hmem'
        have ihp := ih p hmem'
        simp only [pathUpUntil, if_neg hsd, hpar, ihp]
        simp only [upPath, hpar, List.takeWhile_cons]
        rw [if_pos (by simpa using hsd)]

/-- A state cannot lie strictly inside its own root path. -/
theorem not_self_mem_tail (m : Machine Ext) (W : WFm m) {x : Nat}
    (hx : x < stN m) : x ∉ (anc m x).tail := by
  intro hmem
  obtain ⟨a, ha, hae⟩ := mem_iff_getD.mp hmem
  simp only [List.length_tail] at ha
  rw [getD_tail] at hae
  have hdet := anc_det m W hx hx (a := a + 1) (b := 0) (by omega)
    (by omega) (by rw [hae, anc_getD_zero m W.pos])
  have := congrArg List.length hdet
  simp only [List.length_drop, List.drop_zero] at this
  omega

/-- The recorded-deep-entry branch of settling: re-enter the recorded
leaf, firing entry actions top-down strictly below the target, and set
current to that exact leaf. -/
theorem settlePhase_deep_rec (m : Machine Ext) (W : WFm m) (e : Event)
    {dst ld : Nat} (hld : ld < stN m) (hmem : dst ∈ (anc m ld).tail)
    (hs : Option (List (Nat × Nat))) {hd : Option (List (Nat × Nat))} (x : Ext)
    (hlook : lookupOpt hd dst = some ld) :
    (settlePhase m e 2 dst hs hd x).1 =
      (((anc m ld).takeWhile (fun y => y != dst)).reverse).filterMap (entryEmit m) ∧
    (settlePhase m e 2 dst hs hd x).2.1 = ld ∧
    (settlePhase m e 2 dst hs hd x).2.2.2 = false := by
  have hpu := pathUpUntil_spec m dst (stN m) ld (List.mem_of_mem_tail hmem)
  have hne : ld ≠ dst := by
    intro h
    rw [h] at hmem
    have hdn : dst < stN m := h ▸ hld
    exact not_self_mem_tail m W hdn hmem
  have hcons : (anc m ld).takeWhile (fun y => y != dst) =
      ld :: (upPath m (stN m - 1) (parentOf m ld)).takeWhile (fun y => y != dst) := by
    rw [anc_cons m W.pos, List.takeWhile_cons, if_pos (by simpa using hne)]
  simp only [settlePhase, hlook]
  rw [if_pos trivial, hpu]
  refine ⟨?_, ?_, ?_⟩
  · show (enterIdx m e _ _ x).1 = _
    rw [enterIdx_trace m e _ _ x (Nat.le_refl _), List.take_length, upPath_eq_anc]
  · show (_ : List Nat).getD 0 0 = ld
    rw [upPath_eq_anc, hcons]
    simp
  · show (false || (_ : List Nat).isEmpty) = false
    rw [upPath_eq_anc, hcons]
    simp

theorem settlePhase_deep_none (m : Machine Ext) (e : Event) {dst : Nat}
    {hs hd : Option (List (Nat × Nat))} {x : Ext}
    (hlook : lookupOpt hd dst = none) :
    settlePhase m e 2 dst hs hd x =
      descendLoop m e (stN m) (initialOf m dst) dst x := by
  simp [settlePhase, hlook]

theorem settlePhase_shallow_rec (m : Machine Ext) (e : Event) {dst c : Nat}
    {hs hd : Option (List (Nat × Nat))} {x : Ext}
    (hlook : lookupOpt hs dst = some c) :
    settlePhase m e 1 dst hs hd x = descendLoop m e (stN m) (some c) dst x := by
  simp [settlePhase, hlook]

theorem settlePhase_shallow_none (m : Machine Ext) (e : Event) {dst : Nat}
    {hs hd : Option (List (Nat × Nat))} {x : Ext}
    (hlook : lookupOpt hs dst = none) :
    settlePhase m e 1 dst hs hd x =
      descendLoop m e (stN m) (initialOf m dst) dst x := by
  simp [settlePhase, hlook]

theorem settlePhase_plain (m : Machine Ext) (e : Event) {th dst : Nat}
    {hs hd : Option (List (Nat × Nat))} {x : Ext}
    (h2 : th ≠ 2) (h1 : th ≠ 1) :
    settlePhase m e th dst hs hd x =
      descendLoop m e (stN m) (initialOf m dst) dst x := by
  simp [settlePhase, h2, h1]

theorem entryEmit_eq_some {m : Machine Ext} {y : Nat} {a : Act}
    (h : entryEmit m y = some a) : a = Act.enterA y := by
  simp only [entryEmit] at h
  split at h
  · simpa using h.symm
  · simp at h

theorem exitEmit_eq_some {m : Machine Ext} {y : Nat} {a : Act}
    (h : exitEmit m y = some a) : a = Act.exitA y := by
  simp only [exitEmit] at h
  split at h
  · simpa using h.symm
  · simp at h

theorem mem_anc_self (m : Machine Ext) (h : 0 < stN m) (s : Nat) : s ∈ anc m s := by
  rw [anc_cons m h s]
  exact List.mem_cons_self _ _

/-- The exit phase preserves the two history-map invariants and the
allocation status of both maps. -/
theorem exitLoop_maps (m : Machine Ext) (e : Event) (cur0 lca : Nat) (W : WFm m)
    (hc0 : cur0 < stN m) (hleaf : (getSt m cur0).children = []) :
    ∀ f s x hs hd, s ∈ anc m cur0 → ShInv m hs → DpInv m hd →
      ShInv m (exitLoop m e cur0 lca f s x hs hd).hs ∧
      DpInv m (exitLoop m e cur0 lca f s x hs hd).hd ∧
      (exitLoop m e cur0 lca f s x hs hd).hs.isSome = hs.isSome ∧
      (exitLoop m e cur0 lca f s x hs hd).hd.isSome = hd.isSome := by
  intro f
  induction f with
  | zero => intro s x hs hd _ h1 h2; exact ⟨h1, h2, rfl, rfl⟩
  | succ f ih =>
    intro s x hs hd hsmem h1 h2
    by_cases hsl : s = lca
    · simp only [exitLoop, if_pos hsl]
      exact ⟨h1, h2, trivial, trivial⟩
    · cases hpar : parentOf m s with
      | none =>
        simp only [exitLoop, if_neg hsl, hpar]
        exact ⟨h1, h2, trivial, trivial⟩
      | some p =>
        obtain ⟨a, ha, hae, hap⟩ := mem_anc_parent m W hc0 hsmem hpar
        have hpmem : p ∈ anc m cur0 := mem_iff_getD.mpr ⟨a + 1, ha, hap⟩
        have hptail : p ∈ (anc m cur0).tail :=
          mem_iff_getD.mpr ⟨a, by simp only [List.length_tail]; omega,
            by rw [getD_tail]; exact hap⟩
        have hsn : s < stN m := mem_anc_lt m W hc0 hsmem
        have h1' : ShInv m
            (if hasSh (getSt m p).history then optWrite hs p s else (hs, false)).1 := by
          split
          · cases hs with
            | none => intro l hl; simp [optWrite] at hl
            | some l0 =>
              intro l hl
              simp only [optWrite, mapInsert, Option.some.injEq] at hl
              subst hl
              intro kv hkv
              rcases List.mem_cons.mp hkv with rfl | hkv
              · exact ⟨hsn, hpar⟩
              · exact h1 l0 rfl kv (List.mem_of_mem_filter hkv)
          · exact h1
        have h2' : DpInv m
            (if hasDp (getSt m p).history then optWrite hd p cur0 else (hd, false)).1 := by
          split
          · cases hd with
            | none => intro l hl; simp [optWrite] at hl
            | some l0 =>
              intro l hl
              simp only [optWrite, mapInsert, Option.some.injEq] at hl
              subst hl
              intro kv hkv
              rcases List.mem_cons.mp hkv with rfl | hkv
              · exact ⟨hc0, hleaf, hptail⟩
              · exact h2 l0 rfl kv (List.mem_of_mem_filter hkv)
          · exact h2
        have hso : (if hasSh (getSt m p).history then optWrite hs p s
            else (hs, false)).1.isSome = hs.isSome := by
          split
          · cases hs <;> simp [optWrite]
          · rfl
        have hdo : (if hasDp (getSt m p).history then optWrite hd p cur0
            else (hd, false)).1.isSome = hd.isSome := by
          split
          · cases hd <;> simp [optWrite]
          · rfl
        have ihp := ih p (runA (getSt m s).exitAct (Act.exitA s) e x).2 _ _
          hpmem h1' h2'
        simp only [exitLoop, if_neg hsl, hpar]
        exact ⟨ihp.1, ihp.2.1, by rw [ihp.2.2.1, hso], by rw [ihp.2.2.2, hdo]⟩

theorem scanTrans_trace_guards (e : Event) (x : Ext) (s : Nat) :
    ∀ (ts : List (Trans Ext)) (k : Nat) (a : Act),
      a ∈ (scanTrans e x s ts k).1 → ∃ s' k', a = Act.guardA s' k' := by
  intro ts
  induction ts with
  | nil => intro k a h; simp [scanTrans] at h
  | cons t rest ih =>
    intro k a h
    simp only [scanTrans] at h
    split at h
    · split at h
      · simp at h
      · split at h
        · simp only [List.mem_singleton] at h
          exact ⟨s, k, h⟩
        · simp only [List.mem_cons] at h
          rcases h with rfl | h
          · exact ⟨s, k, rfl⟩
          · exact ih (k + 1) a h
    · exact ih (k + 1) a h

theorem getTransitionAux_trace_guards (m : Machine Ext) (e : Event) (x : Ext) :
    ∀ (f : Nat) (o : Option Nat) (a : Act),
      a ∈ (getTransitionAux m e x f o).1 → ∃ s' k', a = Act.guardA s' k' := by
  intro f
  induction f with
  | zero => intro o a h; cases o <;> simp [getTransitionAux] at h
  | succ f ih =>
    intro o a h
    cases o with
    | none => simp [getTransitionAux] at h
    | some s =>
      simp only [getTransitionAux] at h
      cases hsc : scanTrans e x s (getSt m s).transitions 0 with
      | mk tr r =>
        rw [hsc] at h
        cases r with
        | some k =>
          simp only at h
          exact scanTrans_trace_guards e x s _ 0 a (by rw [hsc]; exact h)
        | none =>
          simp only [List.mem_append] at h
          rcases h with h | h
          · exact scanTrans_trace_guards e x s _ 0 a (by rw [hsc]; exact h)
          · exact ih (parentOf m s) a h

/-- Entries emitted by an initial-link descent below dst are strictly
deeper than dst. -/
theorem descend_entries (m : Machine Ext) (W : WFm m) (e : Event) {dst : Nat}
    {start : Option Nat} (x : Ext)
    (hstart : ∀ c, start = some c → c < stN m ∧
      rsteps m (stN m) c = rsteps m (stN m) dst + 1) :
    ∀ a ∈ (descendLoop m e (stN m) start dst x).1, ∃ y, a = Act.enterA y ∧
      rsteps m (stN m) dst < rsteps m (stN m) y := by
  rw [descendLoop_spec]
  intro a ha
  simp only [List.mem_filterMap] at ha
  obtain ⟨y, hy, hye⟩ := ha
  cases start with
  | none => simp [iChain] at hy
  | some c =>
    obtain ⟨hcn, hcr⟩ := hstart c rfl
    have := mem_iChain_facts m W (stN m) c y hcn hy
    exact ⟨y, entryEmit_eq_some hye, by omega⟩

/-- Every settling emission is an entry of a state strictly deeper than
the target. -/
theorem settlePhase_entries (m : Machine Ext) (W : WFm m) (e : Event)
    {dst : Nat} (hdst : dst < stN m) {hs hd : Option (List (Nat × Nat))}
    (hsh : ShInv m hs) (hdp : DpInv m hd) (th : Nat) (x : Ext) :
    ∀ a ∈ (settlePhase m e th dst hs hd x).1, ∃ y, a = Act.enterA y ∧
      rsteps m (stN m) dst < rsteps m (stN m) y := by
  have hinit : ∀ c, initialOf m dst = some c → c < stN m ∧
      rsteps m (stN m) c = rsteps m (stN m) dst + 1 := by
    intro c hc
    obtain ⟨hcn, hcp, _⟩ := W.initialMem dst hdst c hc
    exact ⟨hcn, rsteps_child m W hcn hcp⟩
  by_cases h2 : th = 2
  · subst h2
    cases hlook : lookupOpt hd dst with
    | some ld =>
      obtain ⟨l, hl, hmeml⟩ := lookupOpt_mem hlook
      obtain ⟨hldn0, hldleaf0, hmem0⟩ := hdp l hl (dst, ld) hmeml
      have hldn : ld < stN m := hldn0
      have hmem : dst ∈ (anc m ld).tail := hmem0
      obtain ⟨htr, _, _⟩ := settlePhase_deep_rec m W e hldn hmem hs x hlook
      intro a ha
      rw [htr] at ha
      rw [List.mem_filterMap] at ha
      obtain ⟨y, hy, hye⟩ := ha
      rw [List.mem_reverse] at hy
      obtain ⟨a', ha', hae⟩ := mem_iff_getD.mp hmem
      simp only [List.length_tail] at ha'
      rw [getD_tail] at hae
      have huniq : ∀ idx, idx < a' + 1 → (anc m ld).getD idx 0 ≠ dst := by
        intro idx hidx hcon
        have hdet := anc_det m W hldn hldn (a := idx) (b := a' + 1) (by omega)
          (by omega) (by rw [hcon, hae])
        have := congrArg List.length hdet
        simp only [List.length_drop] at this
        omega
      have htake := takeWhile_eq_take_of (l := anc m ld) (b := dst) (k := a' + 1)
        (by omega) hae (fun i hi => huniq i hi)
      rw [htake] at hy
      obtain ⟨idx, hidx, hie⟩ := mem_iff_getD.mp hy
      have hidx2 : idx < a' + 1 := by
        simp only [List.length_take] at hidx
        omega
      rw [getD_take _ _ _ hidx] at hie
      have hr1 := rsteps_getD_anc m W hldn idx (by omega)
      have hr2 := rsteps_getD_anc m W hldn (a' + 1) (by omega)
      rw [hie] at hr1
      rw [hae] at hr2
      exact ⟨y, entryEmit_eq_some hye, by omega⟩
    | none =>
      rw [settlePhase_deep_none m e hlook]
      exact descend_entries m W e x hinit
  · by_cases h1 : th = 1
    · subst h1
      cases hlook : lookupOpt hs dst with
      | some c =>
        rw [settlePhase_shallow_rec m e hlook]
        apply descend_entries m W e x
        intro c' hc'
        obtain rfl : c = c' := by simpa using hc'
        obtain ⟨l, hl, hmeml⟩ := lookupOpt_mem hlook
        obtain ⟨hcn, hcp⟩ := hsh l hl _ hmeml
        exact ⟨hcn, rsteps_child m W hcn hcp⟩
      | none =>
        rw [settlePhase_shallow_none m e hlook]
        exact descend_entries m W e x hinit
    · rw [settlePhase_plain m e h2 h1]
      exact descend_entries m W e x hinit


/-- No emission concerning the boundary state itself appears anywhere in
the assembled output of a matched non-internal transition whose settling
stays strictly below a target at least as deep as the boundary. -/
theorem deliverAssemble_boundary_free (m : Machine Ext) (ins : Inst Ext) (e : Event)
    (src : Nat) (t : Trans Ext) (gtr : List Act) {b cur0 : Nat} (W : WFm m)
    (hc : cur0 < stN m) (hleaf : (getSt m cur0).children = [])
    (hsh : ShInv m ins.historyShallow) (hdp : DpInv m ins.historyDeep)
    (hgtr : ∀ a ∈ gtr, ∃ s' k', a = Act.guardA s' k')
    (hbcur : b ∈ anc m cur0) (hdS : t.target < stN m)
    (hrb : rsteps m (stN m) b ≤ rsteps m (stN m) t.target) :
    Act.exitA b ∉ (deliverAssemble m ins e src t gtr b
        ((anc m t.target).takeWhile (fun y => y != b)).length cur0).trace ∧
    Act.enterA b ∉ (deliverAssemble m ins e src t gtr b
        ((anc m t.target).takeWhile (fun y => y != b)).length cur0).trace := by
  have hmaps := exitLoop_maps m e cur0 b W hc hleaf (stN m) cur0 ins.ext
    ins.historyShallow ins.historyDeep (mem_anc_self m (by omega) cur0) hsh hdp
  have hex := exitLoop_trace m e cur0 b (stN m) cur0 ins.ext
    ins.historyShallow ins.historyDeep (by rw [upPath_eq_anc]; exact hbcur)
  have hra : ∀ x : Ext, (runA t.action Act.actA e x).1 = actEmit t := by
    intro x
    rw [runA_fst, actEmit]
  have hcnt : ((anc m t.target).takeWhile (fun y => y != b)).length ≤
      (anc m t.target).length :=
    (List.takeWhile_prefix _).length_le
  have hen : ∀ x : Ext,
      (enterIdx m e (anc m t.target)
        ((anc m t.target).takeWhile (fun y => y != b)).length x).1 =
      (((anc m t.target).takeWhile (fun y => y != b)).reverse).filterMap
        (entryEmit m) := by
    intro x
    rw [enterIdx_trace m e (anc m t.target) _ x hcnt, take_length_takeWhile]
  have hsettle := settlePhase_entries m W e hdS hmaps.1 hmaps.2.1 t.history
    (enterIdx m e (anc m t.target)
      ((anc m t.target).takeWhile (fun y => y != b)).length
      (runA t.action Act.actA e
        (exitLoop m e cur0 b (stN m) cur0 ins.ext ins.historyShallow
          ins.historyDeep).ext).2).2
  have htr : (deliverAssemble m ins e src t gtr b
      ((anc m t.target).takeWhile (fun y => y != b)).length cur0).trace =
      gtr ++ ((anc m cur0).takeWhile (fun y => y != b)).filterMap (exitEmit m) ++
      actEmit t ++
      (((anc m t.target).takeWhile (fun y => y != b)).reverse).filterMap
        (entryEmit m) ++
      (settlePhase m e t.history t.target
        (exitLoop m e cur0 b (stN m) cur0 ins.ext ins.historyShallow
          ins.historyDeep).hs
        (exitLoop m e cur0 b (stN m) cur0 ins.ext ins.historyShallow
          ins.historyDeep).hd
        (enterIdx m e (anc m t.target)
          ((anc m t.target).takeWhile (fun y => y != b)).length
          (runA t.action Act.actA e
            (exitLoop m e cur0 b (stN m) cur0 ins.ext ins.historyShallow
              ins.historyDeep).ext).2).2).1 := by
    simp only [deliverAssemble]
    rw [hex.1, hra, hen]
    simp [upPath_eq_anc]
  constructor
  · intro hcontra
    rw [htr] at hcontra
    simp only [List.mem_append] at hcontra
    rcases hcontra with (((hg | hx) | ha) | hn) | hs
    · obtain ⟨s', k', h'⟩ := hgtr _ hg
      simp at h'
    · rw [List.mem_filterMap] at hx
      obtain ⟨y, hy, hye⟩ := hx
      have h1 := exitEmit_eq_some hye
      have h2 := List.mem_takeWhile_imp hy
      rw [Act.exitA.injEq] at h1
      rw [h1] at h2
      simp at h2
    · simp only [actEmit] at ha
      split at ha <;> simp at ha
    · rw [List.mem_filterMap] at hn
      obtain ⟨y, _, hye⟩ := hn
      have h1 := entryEmit_eq_some hye
      simp at h1
    · obtain ⟨y, h1, _⟩ := hsettle _ hs
      simp at h1
  · intro hcontra
    rw [htr] at hcontra
    simp only [List.mem_append] at hcontra
    rcases hcontra with (((hg | hx) | ha) | hn) | hs
    · obtain ⟨s', k', h'⟩ := hgtr _ hg
      simp at h'
    · rw [List.mem_filterMap] at hx
      obtain ⟨y, _, hye⟩ := hx
      have h1 := exitEmit_eq_some hye
      simp at h1
    · simp only [actEmit] at ha
      split at ha <;> simp at ha
    · rw [List.mem_filterMap] at hn
      obtain ⟨y, hy, hye⟩ := hn
      have h1 := entryEmit_eq_some hye
      have h2 := List.mem_takeWhile_imp (List.mem_reverse.mp hy)
      rw [Act.enterA.injEq] at h1
      rw [h1] at h2
      simp at h2
    · obtain ⟨y, h1, h2⟩ := hsettle _ hs
      rw [Act.enterA.injEq] at h1
      rw [← h1] at h2
      omega


/-- C5: a matched local transition (source and target in an ancestor
relationship) runs the same exit/action/entry/settle pipeline as an
external one, but with the boundary shifted one level deeper, to the
outer of the two states; consequently that shared ancestor state is
neither exited nor re-entered: its exit and entry actions do not appear
anywhere in the emitted trace. -/
theorem c5_local_shifts_lca (m : Machine Ext) (ins : Inst Ext) (e : Event)
    {cur0 src k : Nat} {t : Trans Ext} (W : WFm m)
    (hini : ins.initialized = true) (hcur : ins.current = some cur0)
    (hc : cur0 < stN m) (hleaf : (getSt m cur0).children = [])
    (hsh : ShInv m ins.historyShallow) (hdp : DpInv m ins.historyDeep)
    (hsel : (getTransitionAux m e ins.ext (stN m) (some cur0)).2 = some (src, k))
    (ht : (getSt m src).transitions.getD k default = t)
    (hint : t.internal = false) (hloc : t.isLocal = true)
    (hterm : t.target ≠ m.terminal)
    (hanc : src ∈ (anc m t.target).tail ∨ t.target ∈ (anc m src).tail) :
    (Deliver m ins e).handled = true ∧
    (∃ rest, (Deliver m ins e).trace =
        (getTransitionAux m e ins.ext (stN m) (some cur0)).1 ++
        ((anc m cur0).takeWhile
          (fun y => y != outerOf m src t.target)).filterMap (exitEmit m) ++
        actEmit t ++
        (((anc m t.target).takeWhile
          (fun y => y != outerOf m src t.target)).reverse).filterMap
          (entryEmit m) ++ rest) ∧
    Act.exitA (outerOf m src t.target) ∉ (Deliver m ins e).trace ∧
    Act.enterA (outerOf m src t.target) ∉ (Deliver m ins e).trace := by
  obtain ⟨hbcur, hDel⟩ :=
    deliver_local_decomp m ins e W hini hcur hc hsel ht hint hloc hterm hanc
  obtain ⟨_, hsS, _, _, _, hmt⟩ := matched_src_facts m W e hc hsel
  rw [ht] at hmt
  have hdS : t.target < stN m := W.targetLt src hsS t hmt
  have hrb : rsteps m (stN m) (outerOf m src t.target) ≤
      rsteps m (stN m) t.target := by
    rw [outerOf]
    split
    · exact Nat.le_refl _
    · rcases hanc with h | h
      · exact Nat.le_of_lt (rsteps_tail_lt m W hdS h)
      · exact absurd h (by assumption)
  have hgtr := getTransitionAux_trace_guards m e ins.ext (stN m) (some cur0)
  have hfree := deliverAssemble_boundary_free m ins e src t
    (getTransitionAux m e ins.ext (stN m) (some cur0)).1 W hc hleaf hsh hdp
    hgtr hbcur hdS hrb
  have hassem := deliverAssemble_trace m ins e src t
    (getTransitionAux m e ins.ext (stN m) (some cur0)).1 hbcur
  rw [hDel]
  exact ⟨hassem.1, hassem.2.2, hfree.1, hfree.2⟩


theorem mapLookup_filter_ne (p key : Nat) (h : key ≠ p) :
    ∀ l : List (Nat × Nat),
      mapLookup (l.filter (fun q => q.1 != p)) key = mapLookup l key := by
  intro l
  induction l with
  | nil => rfl
  | cons a rest ih =>
    by_cases hap : a.1 = p
    · rw [List.filter_cons_of_neg (by simp [hap])]
      have h2 : mapLookup (a :: rest) key = mapLookup rest key := by
        simp only [mapLookup]
        rw [List.find?_cons_of_neg _ (by simp only [beq_iff_eq, hap]; omega)]
      rw [h2]
      exact ih
    · rw [List.filter_cons_of_pos (by simp [hap])]
      cases h2 : (a.1 == key) with
      | true =>
        simp only [mapLookup]
        rw [List.find?_cons_of_pos (p := fun (q : Nat × Nat) => q.1 == key) _ h2,
          List.find?_cons_of_pos (p := fun (q : Nat × Nat) => q.1 == key) _ h2]
      | false =>
        simp only [mapLookup]
        rw [List.find?_cons_of_neg (p := fun (q : Nat × Nat) => q.1 == key) _
            (by simp [h2]),
          List.find?_cons_of_neg (p := fun (q : Nat × Nat) => q.1 == key) _
            (by simp [h2])]
        simp only [mapLookup] at ih
        exact ih

theorem mapLookup_insert_ne (l : List (Nat × Nat)) (p v key : Nat) (h : key ≠ p) :
    mapLookup (mapInsert l p v) key = mapLookup l key := by
  have h0 : mapLookup (mapInsert l p v) key =
      mapLookup (l.filter (fun q => q.1 != p)) key := by
    simp only [mapInsert, mapLookup]
    rw [List.find?_cons_of_neg _ (by simp only [beq_iff_eq]; omega)]
  rw [h0, mapLookup_filter_ne p key h l]

theorem lookupOpt_optWrite_ne {mp : Option (List (Nat × Nat))} {p v key : Nat}
    (h : key ≠ p) : lookupOpt (optWrite mp p v).1 key = lookupOpt mp key := by
  cases mp with
  | none => rfl
  | some l => exact mapLookup_insert_ne l p v key h

/-- The exit phase never touches history-map keys that are not ancestors
of the exited leaf. -/
theorem exitLoop_lookup_preserve (m : Machine Ext) (e : Event) (cur0 lca : Nat)
    (W : WFm m) (hc0 : cur0 < stN m) {key : Nat} (hkey : key ∉ anc m cur0) :
    ∀ f s x hs hd, s ∈ anc m cur0 →
      lookupOpt (exitLoop m e cur0 lca f s x hs hd).hs key = lookupOpt hs key ∧
      lookupOpt (exitLoop m e cur0 lca f s x hs hd).hd key = lookupOpt hd key := by
  intro f
  induction f with
  | zero => intro s x hs hd _; exact ⟨rfl, rfl⟩
  | succ f ih =>
    intro s x hs hd hsmem
    by_cases hsl : s = lca
    · simp only [exitLoop, if_pos hsl]
      exact ⟨trivial, trivial⟩
    · cases hpar : parentOf m s with
      | none =>
        simp only [exitLoop, if_neg hsl, hpar]
        exact ⟨trivial, trivial⟩
      | some p =>
        obtain ⟨a, ha, hae, hap⟩ := mem_anc_parent m W hc0 hsmem hpar
        have hpmem : p ∈ anc m cur0 := mem_iff_getD.mpr ⟨a + 1, ha, hap⟩
        have hkp : key ≠ p := fun hx => hkey (hx ▸ hpmem)
        have hw1 : lookupOpt
            (if hasSh (getSt m p).history then optWrite hs p s else (hs, false)).1
            key = lookupOpt hs key := by
          split
          · exact lookupOpt_optWrite_ne hkp
          · rfl
        have hw2 : lookupOpt
            (if hasDp (getSt m p).history then optWrite hd p cur0 else (hd, false)).1
            key = lookupOpt hd key := by
          split
          · exact lookupOpt_optWrite_ne hkp
          · rfl
        have ihp := ih p (runA (getSt m s).exitAct (Act.exitA s) e x).2
          (if hasSh (getSt m p).history then optWrite hs p s else (hs, false)).1
          (if hasDp (getSt m p).history then optWrite hd p cur0 else (hd, false)).1
          hpmem
        simp only [exitLoop, if_neg hsl, hpar]
        exact ⟨by rw [ihp.1, hw1], by rw [ihp.2, hw2]⟩

/-- Settling behaviour of an assembled deep-history transition: a
recorded deep entry is re-entered exactly (current set to it, entries
emitted from just below the target down to it), and an absent entry
falls back to the initial-link descent. -/
theorem deliverAssemble_deep (m : Machine Ext) (ins : Inst Ext) (e : Event)
    (src : Nat) (t : Trans Ext) (gtr : List Act) (cnt : Nat) {b cur0 : Nat}
    (W : WFm m) (hc : cur0 < stN m) (hleaf : (getSt m cur0).children = [])
    (hsh : ShInv m ins.historyShallow) (hdp : DpInv m ins.historyDeep)
    (hbcur : b ∈ anc m cur0) (hhist : t.history = 2)
    (hnotanc : t.target ∉ anc m cur0) :
    (∀ ld, lookupOpt ins.historyDeep t.target = some ld →
      (deliverAssemble m ins e src t gtr b cnt cur0).inst.current = some ld ∧
      (deliverAssemble m ins e src t gtr b cnt cur0).crash = false ∧
      ∃ pre, (deliverAssemble m ins e src t gtr b cnt cur0).trace =
        pre ++ (((anc m ld).takeWhile (fun y => y != t.target)).reverse).filterMap
          (entryEmit m)) ∧
    (lookupOpt ins.historyDeep t.target = none →
      (deliverAssemble m ins e src t gtr b cnt cur0).inst.current =
        some ((iChain m (stN m) (initialOf m t.target)).getLastD t.target) ∧
      ∃ pre, (deliverAssemble m ins e src t gtr b cnt cur0).trace =
        pre ++ (iChain m (stN m) (initialOf m t.target)).filterMap (entryEmit m)) := by
  have hpres := exitLoop_lookup_preserve m e cur0 b W hc hnotanc (stN m) cur0
    ins.ext ins.historyShallow ins.historyDeep (mem_anc_self m (by omega) cur0)
  have hmaps := exitLoop_maps m e cur0 b W hc hleaf (stN m) cur0 ins.ext
    ins.historyShallow ins.historyDeep (mem_anc_self m (by omega) cur0) hsh hdp
  have hex := exitLoop_trace m e cur0 b (stN m) cur0 ins.ext
    ins.historyShallow ins.historyDeep (by rw [upPath_eq_anc]; exact hbcur)
  constructor
  · intro ld hlook
    have hlook2 : lookupOpt
        (exitLoop m e cur0 b (stN m) cur0 ins.ext ins.historyShallow
          ins.historyDeep).hd t.target = some ld := by
      rw [hpres.2, hlook]
    obtain ⟨l, hl, hmeml⟩ := lookupOpt_mem hlook2
    obtain ⟨hldn0, hldleaf0, hmem0⟩ := hmaps.2.1 l hl (t.target, ld) hmeml
    have hldn : ld < stN m := hldn0
    have hmem : t.target ∈ (anc m ld).tail := hmem0
    obtain ⟨htr, hcu, hcr⟩ := settlePhase_deep_rec m W e hldn hmem
      (exitLoop m e cur0 b (stN m) cur0 ins.ext ins.historyShallow
        ins.historyDeep).hs
      (enterIdx m e (anc m t.target) cnt
        (runA t.action Act.actA e
          (exitLoop m e cur0 b (stN m) cur0 ins.ext ins.historyShallow
            ins.historyDeep).ext).2).2
      hlook2
    refine ⟨?_, ?_, ?_⟩
    · show some (settlePhase m e t.history t.target _ _ _).2.1 = some ld
      rw [hhist, hcu]
    · show ((exitLoop m e cur0 b (stN m) cur0 ins.ext ins.historyShallow
          ins.historyDeep).crash || (settlePhase m e t.history t.target _ _ _).2.2.2)
        = false
      rw [hhist, hcr, hex.2]
      rfl
    · refine ⟨gtr ++ (exitLoop m e cur0 b (stN m) cur0 ins.ext ins.historyShallow
        ins.historyDeep).trace ++
        (runA t.action Act.actA e
          (exitLoop m e cur0 b (stN m) cur0 ins.ext ins.historyShallow
            ins.historyDeep).ext).1 ++
        (enterIdx m e (anc m t.target) cnt
          (runA t.action Act.actA e
            (exitLoop m e cur0 b (stN m) cur0 ins.ext ins.historyShallow
              ins.historyDeep).ext).2).1, ?_⟩
      show _ ++ _ ++ _ ++ _ ++ (settlePhase m e t.history t.target _ _ _).1 = _
      rw [hhist, htr]
  · intro hlook
    have hlook2 : lookupOpt
        (exitLoop m e cur0 b (stN m) cur0 ins.ext ins.historyShallow
          ins.historyDeep).hd t.target = none := by
      rw [hpres.2, hlook]
    have hst : settlePhase m e t.history t.target
        (exitLoop m e cur0 b (stN m) cur0 ins.ext ins.historyShallow
          ins.historyDeep).hs
        (exitLoop m e cur0 b (stN m) cur0 ins.ext ins.historyShallow
          ins.historyDeep).hd
        (enterIdx m e (anc m t.target) cnt
          (runA t.action Act.actA e
            (exitLoop m e cur0 b (stN m) cur0 ins.ext ins.historyShallow
              ins.historyDeep).ext).2).2 =
        descendLoop m e (stN m) (initialOf m t.target) t.target
          (enterIdx m e (anc m t.target) cnt
            (runA t.action Act.actA e
              (exitLoop m e cur0 b (stN m) cur0 ins.ext ins.historyShallow
                ins.historyDeep).ext).2).2 := by
      rw [hhist]
      exact settlePhase_deep_none m e hlook2
    rw [descendLoop_spec] at hst
    refine ⟨?_, ?_⟩
    · show some (settlePhase m e t.history t.target _ _ _).2.1 = _
      rw [hst]
    · refine ⟨gtr ++ (exitLoop m e cur0 b (stN m) cur0 ins.ext ins.historyShallow
        ins.historyDeep).trace ++
        (runA t.action Act.actA e
          (exitLoop m e cur0 b (stN m) cur0 ins.ext ins.historyShallow
            ins.historyDeep).ext).1 ++
        (enterIdx m e (anc m t.target) cnt
          (runA t.action Act.actA e
            (exitLoop m e cur0 b (stN m) cur0 ins.ext ins.historyShallow
              ins.historyDeep).ext).2).1, ?_⟩
      show _ ++ _ ++ _ ++ _ ++ (settlePhase m e t.history t.target _ _ _).1 = _
      rw [hst]


/-- C1: a matched external or local transition with deep history into a
non-terminal target outside the current root path re-enters the exact
leaf recorded in the deep-history table under the target: current is set
to that leaf, no panic occurs, and the trace ends with the entry actions
of the path from just below the target down to the leaf, top-down; with
no recorded entry, the settling falls back to the ordinary initial
descent from the target. -/
theorem c1_deep_history (m : Machine Ext) (ins : Inst Ext) (e : Event)
    {cur0 src k : Nat} {t : Trans Ext} (W : WFm m)
    (hini : ins.initialized = true) (hcur : ins.current = some cur0)
    (hc : cur0 < stN m) (hleaf : (getSt m cur0).children = [])
    (hsh : ShInv m ins.historyShallow) (hdp : DpInv m ins.historyDeep)
    (hsel : (getTransitionAux m e ins.ext (stN m) (some cur0)).2 = some (src, k))
    (ht : (getSt m src).transitions.getD k default = t)
    (hint : t.internal = false) (hhist : t.history = 2)
    (hterm : t.target ≠ m.terminal) (hnotanc : t.target ∉ anc m cur0)
    (hflavor : t.isLocal = false ∨
      src ∈ (anc m t.target).tail ∨ t.target ∈ (anc m src).tail) :
    (Deliver m ins e).handled = true ∧
    (∀ ld, lookupOpt ins.historyDeep t.target = some ld →
      (Deliver m ins e).inst.current = some ld ∧
      (Deliver m ins e).crash = false ∧
      ∃ pre, (Deliver m ins e).trace =
        pre ++ (((anc m ld).takeWhile (fun y => y != t.target)).reverse).filterMap
          (entryEmit m)) ∧
    (lookupOpt ins.historyDeep t.target = none →
      (Deliver m ins e).inst.current =
        some ((iChain m (stN m) (initialOf m t.target)).getLastD t.target) ∧
      ∃ pre, (Deliver m ins e).trace =
        pre ++ (iChain m (stN m) (initialOf m t.target)).filterMap (entryEmit m)) := by
  cases hL : t.isLocal with
  | false =>
    obtain ⟨b, hb, hbcur, _, _, hDel⟩ :=
      deliver_external_decomp m ins e W hini hcur hc hsel ht hint hL hterm
    rw [hDel]
    exact ⟨rfl, (deliverAssemble_deep m ins e src t _ _ W hc hleaf hsh hdp hbcur
      hhist hnotanc).1,
      (deliverAssemble_deep m ins e src t _ _ W hc hleaf hsh hdp hbcur
        hhist hnotanc).2⟩
  | true =>
    have hanc : src ∈ (anc m t.target).tail ∨ t.target ∈ (anc m src).tail := by
      rcases hflavor with h | h
      · rw [hL] at h; cases h
      · exact h
    obtain ⟨hbcur, hDel⟩ :=
      deliver_local_decomp m ins e W hini hcur hc hsel ht hint hL hterm hanc
    rw [hDel]
    exact ⟨rfl, (deliverAssemble_deep m ins e src t _ _ W hc hleaf hsh hdp hbcur
      hhist hnotanc).1,
      (deliverAssemble_deep m ins e src t _ _ W hc hleaf hsh hdp hbcur
        hhist hnotanc).2⟩


theorem iChain_none (m : Machine Ext) (f : Nat) : iChain m f none = [] := by
  cases f <;> rfl

/-- A descent started from a known state lands on a leaf. -/
theorem descend_from_some_leaf (m : Machine Ext) (W : WFm m) (EI : EveryInit m)
    (e : Event) {c dst : Nat} (hc : c < stN m) (x : Ext) :
    (descendLoop m e (stN m) (some c) dst x).2.1 < stN m ∧
    (getSt m (descendLoop m e (stN m) (some c) dst x).2.1).children = [] := by
  rw [descendLoop_spec]
  have hcr := chainCrash_false m W (stN m) c hc (by omega)
  exact iChain_last_leaf m W EI (stN m) c dst hcr hc

/-- A descent along the initial link of the target lands on a leaf,
provided every composite state has an initial sub-state. -/
theorem descend_from_initial_leaf (m : Machine Ext) (W : WFm m) (EI : EveryInit m)
    (e : Event) {dst : Nat} (hdst : dst < stN m) (x : Ext) :
    (descendLoop m e (stN m) (initialOf m dst) dst x).2.1 < stN m ∧
    (getSt m (descendLoop m e (stN m) (initialOf m dst) dst x).2.1).children = [] := by
  cases hio : initialOf m dst with
  | none =>
    have hdleaf : (getSt m dst).children = [] := by
      by_contra hne
      have h := EI dst hdst hne
      rw [hio] at h
      simp at h
    rw [descendLoop_spec, iChain_none]
    exact ⟨hdst, hdleaf⟩
  | some c =>
    obtain ⟨hcn, _, _⟩ := W.initialMem dst hdst c hio
    exact descend_from_some_leaf m W EI e hcn x

/-- The settling phase always leaves the instance at a leaf. -/
theorem settlePhase_current_leaf (m : Machine Ext) (W : WFm m) (EI : EveryInit m)
    (e : Event) {dst : Nat} (hdst : dst < stN m)
    {hs hd : Option (List (Nat × Nat))} (hsh : ShInv m hs) (hdp : DpInv m hd)
    (th : Nat) (x : Ext) :
    (settlePhase m e th dst hs hd x).2.1 < stN m ∧
    (getSt m (settlePhase m e th dst hs hd x).2.1).children = [] := by
  by_cases h2 : th = 2
  · subst h2
    cases hlook : lookupOpt hd dst with
    | some ld =>
      obtain ⟨l, hl, hmeml⟩ := lookupOpt_mem hlook
      obtain ⟨hldn0, hldleaf0, hmem0⟩ := hdp l hl (dst, ld) hmeml
      have hldn : ld < stN m := hldn0
      have hldleaf : (getSt m ld).children = [] := hldleaf0
      have hmem : dst ∈ (anc m ld).tail := hmem0
      obtain ⟨_, hcu, _⟩ := settlePhase_deep_rec m W e hldn hmem hs x hlook
      rw [hcu]
      exact ⟨hldn, hldleaf⟩
    | none =>
      rw [settlePhase_deep_none m e hlook]
      exact descend_from_initial_leaf m W EI e hdst x
  · by_cases h1 : th = 1
    · subst h1
      cases hlook : lookupOpt hs dst with
      | some c =>
        rw [settlePhase_shallow_rec m e hlook]
        obtain ⟨l, hl, hmeml⟩ := lookupOpt_mem hlook
        obtain ⟨hcn0, _⟩ := hsh l hl (dst, c) hmeml
        exact descend_from_some_leaf m W EI e (show c < stN m from hcn0) x
      | none =>
        rw [settlePhase_shallow_none m e hlook]
        exact descend_from_initial_leaf m W EI e hdst x
    · rw [settlePhase_plain m e h2 h1]
      exact descend_from_initial_leaf m W EI e hdst x

/-- One Deliver step on a matched transition preserves the history-map
invariants and leaves the instance either unchanged, terminated, or at a
leaf. -/
theorem deliverMatched_inv (m : Machine Ext) (W : WFm m) (EI : EveryInit m)
    (ins : Inst Ext) (e : Event) {cur0 : Nat} (hc : cur0 < stN m)
    (hleaf : (getSt m cur0).children = [])
    (hsh : ShInv m ins.historyShallow) (hdp : DpInv m ins.historyDeep)
    (src : Nat) (t : Trans Ext) (gtr : List Act)
    (hdst : t.internal = false → t.target < stN m) :
    ShInv m (deliverMatched m ins e cur0 src t gtr).inst.historyShallow ∧
    DpInv m (deliverMatched m ins e cur0 src t gtr).inst.historyDeep ∧
    (deliverMatched m ins e cur0 src t gtr).inst.initialized = ins.initialized ∧
    ((deliverMatched m ins e cur0 src t gtr).inst.current = ins.current ∨
     (deliverMatched m ins e cur0 src t gtr).inst.current = none ∨
     ∃ l, (deliverMatched m ins e cur0 src t gtr).inst.current = some l ∧
       l < stN m ∧ (getSt m l).children = []) := by
  have h0 : 0 < stN m := W.pos
  cases hint : t.internal with
  | true =>
    simp only [deliverMatched, hint, if_true]
    exact ⟨hsh, hdp, trivial, Or.inl trivial⟩
  | false =>
    have hdst2 : t.target < stN m := hdst hint
    simp only [deliverMatched, hint, Bool.false_eq_true, if_false]
    by_cases hterm : t.target = m.terminal
    · rw [if_pos hterm]
      exact ⟨(exitLoop_maps m e cur0 _ W hc hleaf (stN m) cur0 ins.ext
          ins.historyShallow ins.historyDeep (mem_anc_self m h0 cur0) hsh hdp).1,
        (exitLoop_maps m e cur0 _ W hc hleaf (stN m) cur0 ins.ext
          ins.historyShallow ins.historyDeep (mem_anc_self m h0 cur0) hsh
          hdp).2.1,
        rfl, Or.inr (Or.inl rfl)⟩
    · rw [if_neg hterm]
      have hmaps := exitLoop_maps m e cur0
        ((if t.isLocal then
            ((upPath m (stN m) (some src)).getD
              (lcaScan (upPath m (stN m) (some src))
                (upPath m (stN m) (some t.target))
                (upPath m (stN m) (some src)).length
                (((upPath m (stN m) (some src)).length : Int) - 2)
                (((upPath m (stN m) (some t.target)).length : Int) - 2)).1.toNat 0,
             (lcaScan (upPath m (stN m) (some src))
                (upPath m (stN m) (some t.target))
                (upPath m (stN m) (some src)).length
                (((upPath m (stN m) (some src)).length : Int) - 2)
                (((upPath m (stN m) (some t.target)).length : Int) - 2)).2 - 1)
          else
            ((upPath m (stN m) (some src)).getD
              ((lcaScan (upPath m (stN m) (some src))
                (upPath m (stN m) (some t.target))
                (upPath m (stN m) (some src)).length
                (((upPath m (stN m) (some src)).length : Int) - 2)
                (((upPath m (stN m) (some t.target)).length : Int) - 2)).1 +
                1).toNat 0,
             (lcaScan (upPath m (stN m) (some src))
                (upPath m (stN m) (some t.target))
                (upPath m (stN m) (some src)).length
                (((upPath m (stN m) (some src)).length : Int) - 2)
                (((upPath m (stN m) (some t.target)).length : Int) - 2)).2)).1)
        W hc hleaf (stN m) cur0 ins.ext
        ins.historyShallow ins.historyDeep (mem_anc_self m h0 cur0) hsh hdp
      have hlf := settlePhase_current_leaf m W EI e hdst2 hmaps.1 hmaps.2.1
        t.history
        ((enterIdx m e (upPath m (stN m) (some t.target))
          ((if t.isLocal then
              ((upPath m (stN m) (some src)).getD
                (lcaScan (upPath m (stN m) (some src))
                  (upPath m (stN m) (some t.target))
                  (upPath m (stN m) (some src)).length
                  (((upPath m (stN m) (some src)).length : Int) - 2)
                  (((upPath m (stN m) (some t.target)).length : Int) - 2)).1.toNat
                0,
               (lcaScan (upPath m (stN m) (some src))
                  (upPath m (stN m) (some t.target))
                  (upPath m (stN m) (some src)).length
                  (((upPath m (stN m) (some src)).length : Int) - 2)
                  (((upPath m (stN m) (some t.target)).length : Int) - 2)).2 - 1)
            else
              ((upPath m (stN m) (some src)).getD
                ((lcaScan (upPath m (stN m) (some src))
                  (upPath m (stN m) (some t.target))
                  (upPath m (stN m) (some src)).length
                  (((upPath m (stN m) (some src)).length : Int) - 2)
                  (((upPath m (stN m) (some t.target)).length : Int) - 2)).1 +
                  1).toNat 0,
               (lcaScan (upPath m (stN m) (some src))
                  (upPath m (stN m) (some t.target))
                  (upPath m (stN m) (some src)).length
                  (((upPath m (stN m) (some src)).length : Int) - 2)
                  (((upPath m (stN m) (some t.target)).length : Int) - 2)).2)).2 +
            1).toNat
          (runA t.action Act.actA e
            (exitLoop m e cur0
              ((if t.isLocal then
                  ((upPath m (stN m) (some src)).getD
                    (lcaScan (upPath m (stN m) (some src))
                      (upPath m (stN m) (some t.target))
                      (upPath m (stN m) (some src)).length
                      (((upPath m (stN m) (some src)).length : Int) - 2)
                      (((upPath m (stN m) (some t.target)).length : Int) -
                        2)).1.toNat 0,
                   (lcaScan (upPath m (stN m) (some src))
                      (upPath m (stN m) (some t.target))
                      (upPath m (stN m) (some src)).length
                      (((upPath m (stN m) (some src)).length : Int) - 2)
                      (((upPath m (stN m) (some t.target)).length : Int) -
                        2)).2 - 1)
                else
                  ((upPath m (stN m) (some src)).getD
                    ((lcaScan (upPath m (stN m) (some src))
                      (upPath m (stN m) (some t.target))
                      (upPath m (stN m) (some src)).length
                      (((upPath m (stN m) (some src)).length : Int) - 2)
                      (((upPath m (stN m) (some t.target)).length : Int) -
                        2)).1 + 1).toNat 0,
                   (lcaScan (upPath m (stN m) (some src))
                      (upPath m (stN m) (some t.target))
                      (upPath m (stN m) (some src)).length
                      (((upPath m (stN m) (some src)).length : Int) - 2)
                      (((upPath m (stN m) (some t.target)).length : Int) -
                        2)).2)).1)
              (stN m) cur0 ins.ext ins.historyShallow
              ins.historyDeep).ext).2).2)
      exact ⟨hmaps.1, hmaps.2.1, rfl, Or.inr (Or.inr ⟨_, rfl, hlf.1, hlf.2⟩)⟩


/-- Fold a list of events through Deliver, keeping the instance. -/
def runEvents (m : Machine Ext) : Inst Ext → List Event → Inst Ext
  | ins, [] => ins
  | ins, e :: es => runEvents m (Deliver m ins e).inst es

/-- The run-to-completion invariant: the instance is initialized, its
history maps satisfy their invariants, and it sits either terminated or
at a leaf. -/
def InvC8 (m : Machine Ext) (ins : Inst Ext) : Prop :=
  ins.initialized = true ∧
  ShInv m ins.historyShallow ∧ DpInv m ins.historyDeep ∧
  (ins.current = none ∨ ∃ l, ins.current = some l ∧ l < stN m ∧
    (getSt m l).children = [])

theorem Deliver_inv (m : Machine Ext) (W : WFm m) (EI : EveryInit m)
    (ins : Inst Ext) (e : Event) (h : InvC8 m ins) :
    InvC8 m (Deliver m ins e).inst := by
  obtain ⟨hini, hsh, hdp, hcur⟩ := h
  rcases hcur with hnone | ⟨l, hl, hln, hleaf⟩
  · rw [Deliver_terminated m ins e hini hnone]
    exact ⟨hini, hsh, hdp, Or.inl hnone⟩
  · cases hsel : (getTransitionAux m e ins.ext (stN m) (some l)).2 with
    | none =>
      rw [Deliver_no_match m ins e hini hl hsel]
      exact ⟨hini, hsh, hdp, Or.inr ⟨l, hl, hln, hleaf⟩⟩
    | some sk =>
      obtain ⟨src, k⟩ := sk
      rw [Deliver_eq_matched m ins e hini hl hsel]
      obtain ⟨hmem, hsS, hs0, hsT, hkb, hmt⟩ := matched_src_facts m W e hln hsel
      have hdm := deliverMatched_inv m W EI ins e hln hleaf hsh hdp src
        ((getSt m src).transitions.getD k default)
        (getTransitionAux m e ins.ext (stN m) (some l)).1
        (fun _ => W.targetLt src hsS _ hmt)
      refine ⟨?_, hdm.1, hdm.2.1, ?_⟩
      · rw [hdm.2.2.1]; exact hini
      · rcases hdm.2.2.2 with hsame | hres
        · rw [hsame, hl]
          exact Or.inr ⟨l, rfl, hln, hleaf⟩
        · exact hres

theorem runEvents_inv (m : Machine Ext) (W : WFm m) (EI : EveryInit m) :
    ∀ (evs : List Event) (ins : Inst Ext), InvC8 m ins →
      InvC8 m (runEvents m ins evs) := by
  intro evs
  induction evs with
  | nil => intro ins h; exact h
  | cons e es ih =>
    intro ins h
    exact ih (Deliver m ins e).inst (Deliver_inv m W EI ins e h)

/-- C8 (amended with the every-composite-has-an-initial hypothesis): on
a finalized machine, Initialize drills from the top state along initial
links, emitting exactly the entry actions of the visited chain in order
and landing on its final state, which is a leaf; and after any sequence
of Deliver calls the instance is either terminated or at a leaf. -/
theorem c8_leaf_invariant (m : Machine Ext) (ins0 : Inst Ext) (e0 : Event)
    (W : WFm m) (EI : EveryInit m) (hv : m.topValidated = true) :
    ((InitializeI m ins0 e0).1.current =
        some ((iChain m (stN m) (some 0)).getLastD 0) ∧
      (getSt m ((iChain m (stN m) (some 0)).getLastD 0)).children = [] ∧
      (InitializeI m ins0 e0).2.1 =
        (iChain m (stN m) (some 0)).filterMap (entryEmit m) ∧
      (InitializeI m ins0 e0).2.2 = false) ∧
    ∀ evs : List Event,
      (runEvents m (InitializeI m ins0 e0).1 evs).current = none ∨
      ∃ l, (runEvents m (InitializeI m ins0 e0).1 evs).current = some l ∧
        l < stN m ∧ (getSt m l).children = [] := by
  have h0 : 0 < stN m := W.pos
  have hcr : chainCrash m (stN m) (some 0) = false :=
    chainCrash_false m W (stN m) 0 h0 (by omega)
  have hlf := iChain_last_leaf m W EI (stN m) 0 0 hcr h0
  have hii : InitializeI m ins0 e0 =
      (⟨(descendLoop m e0 (stN m) (some 0) 0 ins0.ext).2.2.1,
        some (descendLoop m e0 (stN m) (some 0) 0 ins0.ext).2.1,
        (if hasSh m.machineHistory then some [] else none),
        (if hasDp m.machineHistory then some [] else none), true⟩,
       (descendLoop m e0 (stN m) (some 0) 0 ins0.ext).1,
       (descendLoop m e0 (stN m) (some 0) 0 ins0.ext).2.2.2) := by
    rw [InitializeI, if_neg (by rw [hv]; simp)]
  have hinit : ((InitializeI m ins0 e0).1.current =
        some ((iChain m (stN m) (some 0)).getLastD 0) ∧
      (getSt m ((iChain m (stN m) (some 0)).getLastD 0)).children = [] ∧
      (InitializeI m ins0 e0).2.1 =
        (iChain m (stN m) (some 0)).filterMap (entryEmit m) ∧
      (InitializeI m ins0 e0).2.2 = false) := by
    rw [hii]
    refine ⟨?_, hlf.2, ?_, ?_⟩
    · show some (descendLoop m e0 (stN m) (some 0) 0 ins0.ext).2.1 = _
      rw [descendLoop_spec]
    · show (descendLoop m e0 (stN m) (some 0) 0 ins0.ext).1 = _
      rw [descendLoop_spec]
    · show (descendLoop m e0 (stN m) (some 0) 0 ins0.ext).2.2.2 = false
      rw [descendLoop_spec]
      exact hcr
  refine ⟨hinit, ?_⟩
  intro evs
  have hinv0 : InvC8 m (InitializeI m ins0 e0).1 := by
    refine ⟨by rw [hii], ?_, ?_, ?_⟩
    · rw [hii]
      show ShInv m (if hasSh m.machineHistory then some [] else none)
      split
      · intro l hl kv hkv
        obtain rfl : ([] : List (Nat × Nat)) = l := by simpa using hl
        simp at hkv
      · intro l hl; cases hl
    · rw [hii]
      show DpInv m (if hasDp m.machineHistory then some [] else none)
      split
      · intro l hl kv hkv
        obtain rfl : ([] : List (Nat × Nat)) = l := by simpa using hl
        simp at hkv
      · intro l hl; cases hl
    · exact Or.inr ⟨(iChain m (stN m) (some 0)).getLastD 0, hinit.1, hlf.1, hlf.2⟩
  exact (runEvents_inv m W EI evs (InitializeI m ins0 e0).1 hinv0).2.2.2


instance histSubDec (a b : Nat) : Decidable (histSub a b) :=
  inferInstanceAs (Decidable ((hasSh a = true → hasSh b = true) ∧
    (hasDp a = true → hasDp b = true)))

/-- The textbook lowest common ancestor of two states: the deepest state
that lies on both root paths (each state counting as its own ancestor
here).  This is the notion the specification's transition-path sentence
names; the implementation's boundary differs from it whenever the two
states are comparable. -/
def lcaSpec (m : Machine Ext) (s d : Nat) : Option Nat :=
  (anc m s).find? (fun x => (anc m d).contains x)

/-- A machine with a shallow-history trap: state 2 has shallow history;
its child 4 is composite (child 5) but has no initial sub-state, and is
recorded in the shallow-history map when 5 is exited.  All states:
0 top, 1 and 3 and 5 leaves, 2 and 4 composite, 6 terminal. -/
def trapM : Machine Unit :=
  { states :=
      [ ⟨none, [1, 2], some 1, none, none, [], 0⟩,
        ⟨some 0, [], none, none, none,
          [⟨false, false, 1, 5, none, none, 0⟩,
           ⟨false, false, 3, 2, none, none, 1⟩], 0⟩,
        ⟨some 0, [3, 4], some 3, none, none, [], 1⟩,
        ⟨some 2, [], none, none, none, [], 0⟩,
        ⟨some 2, [5], none, none, none, [], 0⟩,
        ⟨some 4, [], none, none, none, [⟨false, false, 2, 1, none, none, 0⟩], 0⟩,
        ⟨none, [], none, none, none, [], 0⟩ ],
    terminal := 6, machineHistory := 1, topValidated := true }

/-- A machine with an external self-transition on the leaf state 1,
which carries both an entry and an exit action. -/
def selfM : Machine Unit :=
  { states :=
      [ ⟨none, [1, 2], some 1, none, none, [], 0⟩,
        ⟨some 0, [], none, some (fun _ x => x), some (fun _ x => x),
          [⟨false, false, 1, 1, none, none, 0⟩], 0⟩,
        ⟨none, [], none, none, none, [], 0⟩ ],
    terminal := 2, machineHistory := 0, topValidated := true }

/-- C8 counterexample: on the finalized, structurally wellformed machine
trapM, after three delivered events the instance's current state is 4, a
composite state with child 5 — not a leaf and not terminated.  The
delivered sequence enters 5, exits it (recording its composite parent 4
in the shallow-history map), and returns via shallow history, which
restores 4 and finds no initial sub-state to descend into. -/
theorem c8_counterexample :
    trapM.topValidated = true ∧ WFm trapM ∧
    (runEvents trapM (InitializeI trapM ⟨(), none, none, none, false⟩ ⟨0⟩).1
      [⟨1⟩, ⟨2⟩, ⟨3⟩]).current = some 4 ∧
    (getSt trapM 4).children ≠ [] := by
  refine ⟨rfl, ?_, rfl, by decide⟩
  constructor <;> first | rfl | decide

/-- C2 counterexample: on selfM, the delivered event matches the
external self-transition of state 1.  The lowest common ancestor of the
matched source (1) and the target (1) is 1 itself, so the claimed exit
set — the root path of the current leaf up to but excluding that LCA —
is empty; yet the implementation exits state 1 (its exit action runs),
because its boundary for comparable endpoints is an ancestor strictly
above the outer state. -/
theorem c2_counterexample :
    lcaSpec selfM 1 1 = some 1 ∧
    (anc selfM 1).takeWhile (fun y => y != 1) = [] ∧
    (Deliver selfM (InitializeI selfM ⟨(), none, none, none, false⟩ ⟨0⟩).1
      ⟨1⟩).handled = true ∧
    Act.exitA 1 ∈ (Deliver selfM (InitializeI selfM ⟨(), none, none, none,
      false⟩ ⟨0⟩).1 ⟨1⟩).trace := by
  refine ⟨rfl, rfl, rfl, ?_⟩
  have h : (Deliver selfM (InitializeI selfM ⟨(), none, none, none, false⟩
      ⟨0⟩).1 ⟨1⟩).trace = [Act.exitA 1, Act.enterA 1] := rfl
  rw [h]
  simp


theorem hasSh_testBit (x : Nat) : hasSh x = x.testBit 0 := by
  rw [hasSh]
  have h : x &&& 1 = (x.testBit 0).toNat * 1 := by
    have h0 := Nat.and_two_pow x 0
    simpa using h0
  rw [h]
  cases x.testBit 0 <;> simp

theorem hasDp_testBit (x : Nat) : hasDp x = x.testBit 1 := by
  rw [hasDp]
  have h : x &&& 2 = (x.testBit 1).toNat * 2 := by
    have h0 := Nat.and_two_pow x 1
    simpa using h0
  rw [h]
  cases x.testBit 1 <;> simp

theorem hasSh_or (a b : Nat) : hasSh (a ||| b) = (hasSh a || hasSh b) := by
  rw [hasSh_testBit, hasSh_testBit, hasSh_testBit, Nat.testBit_lor]

theorem hasDp_or (a b : Nat) : hasDp (a ||| b) = (hasDp a || hasDp b) := by
  rw [hasDp_testBit, hasDp_testBit, hasDp_testBit, Nat.testBit_lor]

theorem histSub_or_right {a b : Nat} (c : Nat) (h : histSub a b) :
    histSub a (b ||| c) := by
  constructor
  · intro hx
    rw [hasSh_or, h.1 hx]
    rfl
  · intro hx
    rw [hasDp_or, h.2 hx]
    rfl

theorem histSub_or_both {a b : Nat} (c : Nat) (h : histSub a b) :
    histSub (a ||| c) (b ||| c) := by
  constructor
  · intro hx
    rw [hasSh_or] at hx ⊢
    rcases Bool.or_eq_true_iff.mp hx with hx | hx
    · rw [h.1 hx]
      rfl
    · rw [hx]
      simp
  · intro hx
    rw [hasDp_or] at hx ⊢
    rcases Bool.or_eq_true_iff.mp hx with hx | hx
    · rw [h.2 hx]
      rfl
    · rw [hx]
      simp

/-- The depth-first preorder walk of recurseValidate, collecting every
transition record in visiting order: a state's own transition list
first, then its children's subtrees in order. -/
def transSeqL (m : Machine Ext) : Nat → List Nat → List (Trans Ext)
  | 0, _ => []
  | _ + 1, [] => []
  | f + 1, s :: rest =>
    (getSt m s).transitions ++ transSeqL m f ((getSt m s).children ++ rest)

/-- The history bitmask Finalize accumulates into a single node: the OR
of t.history over the collected transitions targeting it. -/
def nodeMask (m : Machine Ext) (s : Nat) : Nat :=
  (transSeqL m (stN m) [0]).foldl
    (fun acc t => if t.target = s then acc ||| t.history else acc) 0

/-- The machine-wide history bitmask Finalize accumulates: the OR of
t.history over all collected transitions. -/
def machineMask (m : Machine Ext) : Nat :=
  (transSeqL m (stN m) [0]).foldl (fun acc t => acc ||| t.history) 0

theorem histSub_foldl (s : Nat) :
    ∀ (l : List (Trans Ext)) (a b : Nat), histSub a b →
      histSub
        (l.foldl (fun acc t => if t.target = s then acc ||| t.history else acc) a)
        (l.foldl (fun acc t => acc ||| t.history) b) := by
  intro l
  induction l with
  | nil => intro a b h; exact h
  | cons t rest ih =>
    intro a b h
    simp only [List.foldl_cons]
    apply ih
    split
    · exact histSub_or_both t.history h
    · exact histSub_or_right t.history h

theorem nodeMask_sub (m : Machine Ext) (s : Nat) :
    histSub (nodeMask m s) (machineMask m) :=
  histSub_foldl s (transSeqL m (stN m) [0]) 0 0
    ⟨fun h => h, fun h => h⟩

/-- The exit phase never writes into a nil history map, provided the
instance allocated each map iff the machine-wide mask requests it. -/
theorem exitLoop_nilWrite (m : Machine Ext) (e : Event) (cur0 lca : Nat)
    (W : WFm m) (hc0 : cur0 < stN m) :
    ∀ f s x hs hd, s ∈ anc m cur0 →
      hs.isSome = hasSh m.machineHistory →
      hd.isSome = hasDp m.machineHistory →
      (exitLoop m e cur0 lca f s x hs hd).nilWrite = false := by
  intro f
  induction f with
  | zero => intro s x hs hd _ _ _; rfl
  | succ f ih =>
    intro s x hs hd hsmem h1 h2
    by_cases hsl : s = lca
    · simp only [exitLoop, if_pos hsl]
    · cases hpar : parentOf m s with
      | none => simp only [exitLoop, if_neg hsl, hpar]
      | some p =>
        obtain ⟨a, ha, hae, hap⟩ := mem_anc_parent m W hc0 hsmem hpar
        have hpmem : p ∈ anc m cur0 := mem_iff_getD.mpr ⟨a + 1, ha, hap⟩
        have hp : p < stN m := mem_anc_lt m W hc0 hpmem
        have hml := W.histLe p hp
        have hw1 : (if hasSh (getSt m p).history then optWrite hs p s
            else (hs, false)).2 = false ∧
            (if hasSh (getSt m p).history then optWrite hs p s
              else (hs, false)).1.isSome = hasSh m.machineHistory := by
          split
          · have hmh : hasSh m.machineHistory = true := hml.1 (by assumption)
            rw [hmh] at h1
            cases hs with
            | none => simp at h1
            | some l => exact ⟨rfl, by rw [hmh]; rfl⟩
          · exact ⟨rfl, h1⟩
        have hw2 : (if hasDp (getSt m p).history then optWrite hd p cur0
            else (hd, false)).2 = false ∧
            (if hasDp (getSt m p).history then optWrite hd p cur0
              else (hd, false)).1.isSome = hasDp m.machineHistory := by
          split
          · have hmh : hasDp m.machineHistory = true := hml.2 (by assumption)
            rw [hmh] at h2
            cases hd with
            | none => simp at h2
            | some l => exact ⟨rfl, by rw [hmh]; rfl⟩
          · exact ⟨rfl, h2⟩
        have ihp := ih p (runA (getSt m s).exitAct (Act.exitA s) e x).2
          (if hasSh (getSt m p).history then optWrite hs p s else (hs, false)).1
          (if hasDp (getSt m p).history then optWrite hd p cur0 else (hd, false)).1
          hpmem hw1.2 hw2.2
        simp only [exitLoop, if_neg hsl, hpar]
        rw [hw1.1, hw2.1, ihp]
        rfl

theorem deliverMatched_nilWrite (m : Machine Ext) (W : WFm m) (ins : Inst Ext)
    (e : Event) {cur0 : Nat} (hc : cur0 < stN m)
    (has : ins.historyShallow.isSome = hasSh m.machineHistory)
    (had : ins.historyDeep.isSome = hasDp m.machineHistory)
    (src : Nat) (t : Trans Ext) (gtr : List Act) :
    (deliverMatched m ins e cur0 src t gtr).nilWrite = false := by
  have h0 : 0 < stN m := W.pos
  cases hint : t.internal with
  | true => simp [deliverMatched, hint]
  | false =>
    simp only [deliverMatched, hint, Bool.false_eq_true, if_false]
    by_cases hterm : t.target = m.terminal
    · rw [if_pos hterm]
      exact exitLoop_nilWrite m e cur0 _ W hc (stN m) cur0 ins.ext
        ins.historyShallow ins.historyDeep (mem_anc_self m h0 cur0) has had
    · rw [if_neg hterm]
      exact exitLoop_nilWrite m e cur0 _ W hc (stN m) cur0 ins.ext
        ins.historyShallow ins.historyDeep (mem_anc_self m h0 cur0) has had

/-- C10: the per-node history mask Finalize accumulates is contained in
the machine-wide mask it accumulates from the same transitions;
Initialize allocates exactly the history maps whose machine-wide bits
are set; and Deliver on an instance whose maps are allocated that way
never writes into a nil map. -/
theorem c10_history_nil_safety (m : Machine Ext) (ins0 ins : Inst Ext)
    (e0 e : Event) {cur0 : Nat} (W : WFm m) (hv : m.topValidated = true)
    (hini : ins.initialized = true) (hcur : ins.current = some cur0)
    (hc : cur0 < stN m)
    (has : ins.historyShallow.isSome = hasSh m.machineHistory)
    (had : ins.historyDeep.isSome = hasDp m.machineHistory) :
    (∀ s, histSub (nodeMask m s) (machineMask m)) ∧
    ((InitializeI m ins0 e0).1.historyShallow.isSome = hasSh m.machineHistory ∧
     (InitializeI m ins0 e0).1.historyDeep.isSome = hasDp m.machineHistory) ∧
    (Deliver m ins e).nilWrite = false := by
  refine ⟨fun s => nodeMask_sub m s, ⟨?_, ?_⟩, ?_⟩
  · rw [InitializeI, if_neg (by rw [hv]; simp)]
    show (if hasSh m.machineHistory then some ([] : List (Nat × Nat))
      else none).isSome = hasSh m.machineHistory
    split
    · rw [show hasSh m.machineHistory = true from by assumption]
      rfl
    · rename_i h
      rw [eq_false_of_ne_true h]
      rfl
  · rw [InitializeI, if_neg (by rw [hv]; simp)]
    show (if hasDp m.machineHistory then some ([] : List (Nat × Nat))
      else none).isSome = hasDp m.machineHistory
    split
    · rw [show hasDp m.machineHistory = true from by assumption]
      rfl
    · rename_i h
      rw [eq_false_of_ne_true h]
      rfl
  · cases hsel : (getTransitionAux m e ins.ext (stN m) (some cur0)).2 with
    | none => rw [Deliver_no_match m ins e hini hcur hsel]
    | some sk =>
      obtain ⟨src, k⟩ := sk
      rw [Deliver_eq_matched m ins e hini hcur hsel]
      exact deliverMatched_nilWrite m W ins e hc has had src _ _


/-- State.validate, with the validated flags modelled as an explicit
visited list: walk initial links from s, stopping at a leaf or an
already-validated state, failing (false) on a composite state without an
initial sub-state; the visited states are returned for memoization. -/
def validateSt (m : Machine Ext) : Nat → List Nat → Nat → List Nat × Bool
  | 0, vs, _ => (vs, false)
  | f + 1, vs, s =>
    if (getSt m s).children = [] then (vs, true)
    else if s ∈ vs then (vs, true)
    else
      match initialOf m s with
      | none => (vs, false)
      | some c => validateSt m f (s :: vs) c

/-- The validation calls of recurseValidate over the collected
transitions in order: targets of internal transitions are skipped,
every other target is validated, threading the memoized set. -/
def finChecks (m : Machine Ext) : List (Trans Ext) → List Nat → Bool
  | [], _ => true
  | t :: ts, vs =>
    if t.internal then finChecks m ts vs
    else
      (validateSt m (stN m + 1) vs t.target).2 &&
        finChecks m ts (validateSt m (stN m + 1) vs t.target).1

/-- Finalize's validation pass (after the pending-builder checks):
validate the top state, then every non-internal transition target in
preorder. -/
def FinalizePass (m : Machine Ext) : Bool :=
  (validateSt m (stN m + 1) [] 0).2 &&
    finChecks m (transSeqL m (stN m) [0]) (validateSt m (stN m + 1) [] 0).1

/-- The specification-side notion: a state resolves to a leaf through
initial links (every composite on the chain has an initial child). -/
def resolvesB (m : Machine Ext) : Nat → Nat → Bool
  | 0, _ => false
  | f + 1, s =>
    if (getSt m s).children = [] then true
    else
      match initialOf m s with
      | none => false
      | some c => resolvesB m f c

theorem resolvesB_fuel (m : Machine Ext) (W : WFm m) :
    ∀ f s, s < stN m → resolvesB m f s = true →
      ∀ f', stN m - rsteps m (stN m) s ≤ f' → resolvesB m f' s = true := by
  intro f
  induction f with
  | zero => intro s _ h; simp [resolvesB] at h
  | succ f ih =>
    intro s hs h f' hf'
    have hrs : rsteps m (stN m) s < stN m := rsteps_lt m (W.rootedAll s hs)
    obtain ⟨g, rfl⟩ : ∃ g, f' = g + 1 := ⟨f' - 1, by omega⟩
    simp only [resolvesB] at h ⊢
    split at h
    · rw [if_pos (by assumption)]
    · rw [if_neg (by assumption)]
      cases hio : initialOf m s with
      | none => rw [hio] at h; simp at h
      | some c =>
        rw [hio] at h
        obtain ⟨hc, hcp, _⟩ := W.initialMem s hs c hio
        have hstep := rsteps_child m W hc hcp
        exact ih c hc h g (by omega)

theorem resolvesB_leaf (m : Machine Ext) {s : Nat}
    (h : (getSt m s).children = []) : resolvesB m (stN m + 1) s = true := by
  simp [resolvesB, h]

theorem resolvesB_step (m : Machine Ext) (W : WFm m) {s c : Nat}
    (hs : s < stN m) (hne : (getSt m s).children ≠ [])
    (hio : initialOf m s = some c)
    (hc : resolvesB m (stN m + 1) c = true) :
    resolvesB m (stN m + 1) s = true := by
  obtain ⟨hcn, hcp, _⟩ := W.initialMem s hs c hio
  show resolvesB m (stN m + 1) s = true
  have h1 : resolvesB m (stN m + 1) s = resolvesB m (stN m) c := by
    simp only [resolvesB]
    rw [if_neg hne, hio]
  rw [h1]
  have hstep := rsteps_child m W hcn hcp
  have hrs : rsteps m (stN m) s < stN m := rsteps_lt m (W.rootedAll s hs)
  exact resolvesB_fuel m W (stN m + 1) c hcn hc (stN m) (by omega)

theorem validateSt_sound (m : Machine Ext) (W : WFm m) :
    ∀ f vs s vs', s < stN m → (∀ v ∈ vs, v < stN m) →
      (∀ v ∈ vs, resolvesB m (stN m + 1) v = true ∨
        rsteps m (stN m) v < rsteps m (stN m) s) →
      validateSt m f vs s = (vs', true) →
      resolvesB m (stN m + 1) s = true ∧ (∀ v ∈ vs', v < stN m) ∧
        (∀ v ∈ vs', resolvesB m (stN m + 1) v = true ∨ v ∈ vs) := by
  intro f
  induction f with
  | zero =>
    intro vs s vs' _ _ _ h
    simp [validateSt] at h
  | succ f ih =>
    intro vs s vs' hs hb hr h
    simp only [validateSt] at h
    split at h
    · obtain ⟨rfl, -⟩ : vs = vs' ∧ True := ⟨by injection h, trivial⟩
      exact ⟨resolvesB_leaf m (by assumption), hb, fun v hv => Or.inr hv⟩
    · split at h
      · obtain ⟨rfl, -⟩ : vs = vs' ∧ True := ⟨by injection h, trivial⟩
        rcases hr s (by assumption) with hres | habs
        · exact ⟨hres, hb, fun v hv => Or.inr hv⟩
        · omega
      · cases hio : initialOf m s with
        | none =>
          rw [hio] at h
          simp at h
        | some c =>
          rw [hio] at h
          obtain ⟨hcn, hcp, _⟩ := W.initialMem s hs c hio
          have hstep := rsteps_child m W hcn hcp
          have hb2 : ∀ v ∈ s :: vs, v < stN m := by
            intro v hv
            rcases List.mem_cons.mp hv with rfl | hv
            · exact hs
            · exact hb v hv
          have hr2 : ∀ v ∈ s :: vs, resolvesB m (stN m + 1) v = true ∨
              rsteps m (stN m) v < rsteps m (stN m) c := by
            intro v hv
            rcases List.mem_cons.mp hv with rfl | hv
            · exact Or.inr (by omega)
            · rcases hr v hv with hres | hlt
              · exact Or.inl hres
              · exact Or.inr (by omega)
          obtain ⟨hresc, hb', hr'⟩ := ih (s :: vs) c vs' hcn hb2 hr2 h
          have hress : resolvesB m (stN m + 1) s = true :=
            resolvesB_step m W hs (by assumption) hio hresc
          refine ⟨hress, hb', ?_⟩
          intro v hv
          rcases hr' v hv with hres | hvm
          · exact Or.inl hres
          · rcases List.mem_cons.mp hvm with rfl | hvm
            · exact Or.inl hress
            · exact Or.inr hvm

theorem validateSt_complete (m : Machine Ext) :
    ∀ f vs s, resolvesB m f s = true → (validateSt m f vs s).2 = true := by
  intro f
  induction f with
  | zero => intro vs s h; simp [resolvesB] at h
  | succ f ih =>
    intro vs s h
    simp only [resolvesB] at h
    simp only [validateSt]
    split at h
    · rw [if_pos (by assumption)]
    · rw [if_neg (by assumption)]
      by_cases hm : s ∈ vs
      · rw [if_pos hm]
      · rw [if_neg hm]
        cases hio : initialOf m s with
        | none => rw [hio] at h; simp at h
        | some c =>
          rw [hio] at h
          exact ih (s :: vs) c h

theorem transSeqL_src (m : Machine Ext) (W : WFm m) :
    ∀ f queue, (∀ q ∈ queue, q < stN m) →
      ∀ t ∈ transSeqL m f queue, ∃ s, s < stN m ∧
        t ∈ (getSt m s).transitions := by
  intro f
  induction f with
  | zero => intro queue _ t ht; simp [transSeqL] at ht
  | succ f ih =>
    intro queue hq t ht
    cases queue with
    | nil => simp [transSeqL] at ht
    | cons s rest =>
      simp only [transSeqL, List.mem_append] at ht
      have hs : s < stN m := hq s (List.mem_cons_self s rest)
      rcases ht with ht | ht
      · exact ⟨s, hs, ht⟩
      · refine ih ((getSt m s).children ++ rest) ?_ t ht
        intro q hqm
        rcases List.mem_append.mp hqm with hqm | hqm
        · exact W.childLt s hs q hqm
        · exact hq q (List.mem_cons_of_mem s hqm)

theorem finChecks_sound (m : Machine Ext) (W : WFm m) :
    ∀ ts vs, (∀ v ∈ vs, v < stN m) →
      (∀ v ∈ vs, resolvesB m (stN m + 1) v = true) →
      (∀ t ∈ ts, t.target < stN m) →
      finChecks m ts vs = true →
      ∀ t ∈ ts, t.internal = false → resolvesB m (stN m + 1) t.target = true := by
  intro ts
  induction ts with
  | nil => intro vs _ _ _ _ t ht; simp at ht
  | cons t0 ts ih =>
    intro vs hb hres htg h t ht hint
    simp only [finChecks] at h
    split at h
    · rcases List.mem_cons.mp ht with rfl | ht
      · rw [hint] at *; simp_all
      · exact ih vs hb hres (fun t1 ht1 => htg t1 (List.mem_cons_of_mem t0 ht1))
          h t ht hint
    · rw [Bool.and_eq_true] at h
      have hpair : validateSt m (stN m + 1) vs t0.target =
          ((validateSt m (stN m + 1) vs t0.target).1, true) := by
        rw [← h.1]
      obtain ⟨hres0, hb', hr'⟩ := validateSt_sound m W (stN m + 1) vs t0.target
        _ (htg t0 (List.mem_cons_self t0 ts)) hb
        (fun v hv => Or.inl (hres v hv)) hpair
      have hres' : ∀ v ∈ (validateSt m (stN m + 1) vs t0.target).1,
          resolvesB m (stN m + 1) v = true := by
        intro v hv
        rcases hr' v hv with hx | hx
        · exact hx
        · exact hres v hx
      rcases List.mem_cons.mp ht with rfl | ht
      · exact hres0
      · exact ih _ hb' hres' (fun t1 ht1 => htg t1 (List.mem_cons_of_mem t0 ht1))
          h.2 t ht hint

theorem finChecks_complete (m : Machine Ext) :
    ∀ ts vs, (∀ t ∈ ts, t.internal = false →
      resolvesB m (stN m + 1) t.target = true) →
      finChecks m ts vs = true := by
  intro ts
  induction ts with
  | nil => intro vs _; rfl
  | cons t0 ts ih =>
    intro vs h
    simp only [finChecks]
    split
    · exact ih vs (fun t1 ht1 => h t1 (List.mem_cons_of_mem t0 ht1))
    · rename_i hx
      have hint : t0.internal = false := eq_false_of_ne_true hx
      rw [Bool.and_eq_true]
      exact ⟨validateSt_complete m (stN m + 1) vs t0.target
        (h t0 (List.mem_cons_self t0 ts) hint),
        ih _ (fun t1 ht1 => h t1 (List.mem_cons_of_mem t0 ht1))⟩

/-- C6: on a structurally wellformed machine, Finalize's validation pass
succeeds iff the top state resolves to a leaf through initial links and
so does the target of every collected non-internal transition; targets
of internal transitions are exempt, so a machine whose only
unresolvable composite states are targets of internal transitions alone
passes. -/
theorem c6_finalize_internal_exemption (m : Machine Ext) (W : WFm m) :
    FinalizePass m = true ↔
      (resolvesB m (stN m + 1) 0 = true ∧
       ∀ t ∈ transSeqL m (stN m) [0], t.internal = false →
         resolvesB m (stN m + 1) t.target = true) := by
  have hqs : ∀ q ∈ [0], q < stN m := by
    intro q hq
    have hq0 : q = 0 := by simpa using hq
    rw [hq0]
    exact W.pos
  have htg : ∀ t ∈ transSeqL m (stN m) [0], t.target < stN m := by
    intro t ht
    obtain ⟨s, hs, hmem⟩ := transSeqL_src m W (stN m) [0] hqs t ht
    exact W.targetLt s hs t hmem
  constructor
  · intro h
    rw [FinalizePass, Bool.and_eq_true] at h
    have hpair : validateSt m (stN m + 1) [] 0 =
        ((validateSt m (stN m + 1) [] 0).1, true) := by
      rw [← h.1]
    obtain ⟨hres0, hb0, hr0⟩ := validateSt_sound m W (stN m + 1) [] 0 _ W.pos
      (by intro v hv; simp at hv) (by intro v hv; simp at hv) hpair
    have hres0' : ∀ v ∈ (validateSt m (stN m + 1) [] 0).1,
        resolvesB m (stN m + 1) v = true := by
      intro v hv
      rcases hr0 v hv with hx | hx
      · exact hx
      · simp at hx
    exact ⟨hres0, finChecks_sound m W _ _ hb0 hres0' htg h.2⟩
  · intro h
    rw [FinalizePass, Bool.and_eq_true]
    exact ⟨validateSt_complete m (stN m + 1) [] 0 h.1,
      finChecks_complete m _ _ h.2⟩


/-- The pending-builder bookkeeping of StateBuilder.Build, with builder
handles as numbers: the Go loop
for i, sb1 := range sm.stateBuilders { if sb == sb1 { remove i }; return }
inspects only the first element (the return sits inside the loop body,
outside the if), so it removes the handle only when it happens to be
first, returns without removing otherwise, and reaches the panic arm
(none) only when the list is empty. -/
def stateBuildRemove (pending : List Nat) (h : Nat) : Option (List Nat) :=
  match pending with
  | [] => none
  | x :: rest => some (if x = h then rest else x :: rest)

/-- The corresponding loop of TransitionBuilder.Build, whose return sits
inside the if: scan the whole list and remove the first occurrence of
the handle; panic (none) if it is absent. -/
def transBuildRemove : List Nat → Nat → Option (List Nat)
  | [], _ => none
  | x :: rest, h =>
    if x = h then some rest
    else (transBuildRemove rest h).map (fun r => x :: r)

/-- Finalize's pending-builder check: it fails naming the first pending
handle, and passes (none) only when the collection is empty. -/
def finalizePendingCheck (pending : List Nat) : Option Nat :=
  match pending with
  | [] => none
  | sb :: _ => some sb

/-- C7 (refuted by the code): committing a state builder removes its
handle from the pending collection only when that handle is first in the
collection.  Creating builders 0 and 1 and committing them in the order
1, 0 — every builder committed exactly once — leaves handle 1 pending,
and Finalize fails naming builder 1; the transition-builder loop, by
contrast, removes exactly the first occurrence of the committed handle
wherever it sits. -/
theorem c7_builder_commit_bug :
    stateBuildRemove [0, 1] 1 = some [0, 1] ∧
    [0, 1].erase 1 = [0] ∧
    (stateBuildRemove [0, 1] 1).bind (fun p => stateBuildRemove p 0) =
      some [1] ∧
    finalizePendingCheck [1] = some 1 ∧
    stateBuildRemove [1, 0] 1 = some [0] ∧
    stateBuildRemove [] 1 = none ∧
    (∀ (l : List Nat) (h : Nat),
      transBuildRemove l h = if h ∈ l then some (l.erase h) else none) := by
  refine ⟨rfl, rfl, rfl, rfl, rfl, rfl, ?_⟩
  intro l
  induction l with
  | nil => intro h; simp [transBuildRemove]
  | cons x rest ih =>
    intro h
    simp only [transBuildRemove]
    by_cases hx : x = h
    · rw [if_pos hx, hx]
      have hm : h ∈ h :: rest := List.mem_cons_self h rest
      rw [if_pos hm, List.erase_cons_head]
    · rw [if_neg hx, ih h]
      by_cases hmem : h ∈ rest
      · rw [if_pos hmem, if_pos (List.mem_cons_of_mem x hmem)]
        rw [List.erase_cons_tail]
        · rfl
        · simp [hx]
      · have hnm : h ∉ x :: rest := by
          intro hc
          rcases List.mem_cons.mp hc with rfl | hcm
          · exact hx rfl
          · exact hmem hcm
        rw [if_neg hmem, if_neg hnm]
        rfl


/-! ### Concrete machines and witnesses -/

theorem ShInv_none (m : Machine Ext) : ShInv m none := fun _ hl => nomatch hl

theorem DpInv_none (m : Machine Ext) : DpInv m none := fun _ hl => nomatch hl

theorem ShInv_of_forall {m : Machine Ext} {l0 : List (Nat × Nat)}
    (h : ∀ kv ∈ l0, kv.2 < stN m ∧ parentOf m kv.2 = some kv.1) :
    ShInv m (some l0) := by
  intro l hl
  obtain rfl : l0 = l := by simpa using hl
  exact h

theorem DpInv_of_forall {m : Machine Ext} {l0 : List (Nat × Nat)}
    (h : ∀ kv ∈ l0, kv.2 < stN m ∧ (getSt m kv.2).children = [] ∧
      kv.1 ∈ (anc m kv.2).tail) :
    DpInv m (some l0) := by
  intro l hl
  obtain rfl : l0 = l := by simpa using hl
  exact h

instance everyInitDec (m : Machine Ext) : Decidable (EveryInit m) :=
  inferInstanceAs (Decidable (∀ s, s < stN m → (getSt m s).children ≠ [] →
    (initialOf m s).isSome = true))

/-- The TestHistory machine: 0 top (initial B), 1 A (shallow and deep
history, transition on event 0 back to B), 2 A1, 3 A2 (initial of A),
4 A11, 5 A12 (initial of A1), 6 B (transitions on events 1..5 into A
with shallow history, A with deep history, A directly, A11, A12),
7 terminal. -/
def histM : Machine Unit :=
  { states :=
      [ ⟨none, [1, 6], some 6, none, none, [], 0⟩,
        ⟨some 0, [2, 3], some 3, none, none,
          [⟨false, false, 0, 6, none, none, 0⟩], 3⟩,
        ⟨some 1, [4, 5], some 5, none, none, [], 0⟩,
        ⟨some 1, [], none, none, none, [], 0⟩,
        ⟨some 2, [], none, none, none, [], 0⟩,
        ⟨some 2, [], none, none, none, [], 0⟩,
        ⟨some 0, [], none, none, none,
          [⟨false, false, 1, 1, none, none, 1⟩,
           ⟨false, false, 2, 1, none, none, 2⟩,
           ⟨false, false, 3, 2, none, none, 0⟩,
           ⟨false, false, 4, 4, none, none, 0⟩,
           ⟨false, false, 5, 5, none, none, 0⟩], 0⟩,
        ⟨none, [], none, none, none, [], 0⟩ ],
    terminal := 7, machineHistory := 3, topValidated := true }

def histI : Inst Unit := (InitializeI histM ⟨(), none, none, none, false⟩ ⟨0⟩).1

/-- The instance after entering A11 and returning to B, which records
shallow history A ↦ A1 and deep history A ↦ A11. -/
def c1Ins : Inst Unit := runEvents histM histI [⟨4⟩, ⟨0⟩]

theorem c1_deep_history_witness :
    (Deliver histM c1Ins ⟨2⟩).inst.current = some 4 ∧
    (Deliver histM c1Ins ⟨2⟩).crash = false := by
  have h := c1_deep_history histM c1Ins ⟨2⟩
    (by constructor <;> first | rfl | decide) rfl rfl (by decide) rfl
    (by have hx : c1Ins.historyShallow = some [(1, 2)] := rfl
        rw [hx]
        exact ShInv_of_forall (by decide))
    (by have hx : c1Ins.historyDeep = some [(1, 4)] := rfl
        rw [hx]
        exact DpInv_of_forall (by decide))
    rfl rfl rfl rfl (by decide) (by decide) (Or.inl rfl)
  have h2 := h.2.1 4 rfl
  exact ⟨h2.1, h2.2.1⟩

theorem c2_external_exit_entry_order_witness :
    (Deliver histM histI ⟨1⟩).handled = true ∧
    (Deliver histM histI ⟨1⟩).matchSrc = some 6 := by
  have h := c2_external_exit_entry_order histM histI ⟨1⟩
    (by constructor <;> first | rfl | decide) rfl rfl (by decide) rfl rfl
    rfl rfl (by decide) rfl
  exact ⟨h.1, h.2.1⟩

theorem c3_selection_first_match_witness :
    (getTransitionAux histM ⟨1⟩ histI.ext (stN histM) (some 6)).2 =
      selectSpec histM ⟨1⟩ histI.ext (anc histM 6) :=
  (c3_selection_first_match histM histI ⟨1⟩ rfl rfl).1

/-- A machine with a transition into the terminal sentinel: 0 top,
1 A (event 9 terminates), 2 terminal. -/
def termM : Machine Unit :=
  { states :=
      [ ⟨none, [1, 2], some 1, none, none, [], 0⟩,
        ⟨some 0, [], none, none, none,
          [⟨false, false, 9, 2, none, none, 0⟩], 0⟩,
        ⟨none, [], none, none, none, [], 0⟩ ],
    terminal := 2, machineHistory := 0, topValidated := true }

def termI : Inst Unit := (InitializeI termM ⟨(), none, none, none, false⟩ ⟨0⟩).1

theorem c4_terminal_transition_witness :
    (Deliver termM termI ⟨9⟩).handled = true ∧
    (Deliver termM termI ⟨9⟩).inst.current = none := by
  have h := c4_terminal_transition termM termI ⟨9⟩
    (by constructor <;> first | rfl | decide) rfl rfl (by decide) rfl rfl
    rfl rfl rfl
  exact ⟨h.1, h.2.1⟩

theorem c9_nil_target_terminates_witness :
    resolveTarget termM none = termM.terminal ∧
    Current (Deliver termM termI ⟨9⟩).inst = none := by
  have h := c9_nil_target_terminates termM termI ⟨9⟩
    (by constructor <;> first | rfl | decide) rfl rfl (by decide) rfl rfl
    rfl rfl rfl
  exact ⟨h.1, h.2.2⟩

/-- A machine with a local transition from a leaf to its direct parent:
0 top, 1 P composite (entry and exit actions, initial 2), 2 C leaf with
a local transition on event 1 into P, 3 terminal. -/
def locM : Machine Unit :=
  { states :=
      [ ⟨none, [1, 3], some 1, none, none, [], 0⟩,
        ⟨some 0, [2], some 2, some (fun _ x => x), some (fun _ x => x),
          [], 0⟩,
        ⟨some 1, [], none, none, none,
          [⟨false, true, 1, 1, none, none, 0⟩], 0⟩,
        ⟨none, [], none, none, none, [], 0⟩ ],
    terminal := 3, machineHistory := 0, topValidated := true }

def locI : Inst Unit := (InitializeI locM ⟨(), none, none, none, false⟩ ⟨0⟩).1

theorem c5_local_shifts_lca_witness :
    (Deliver locM locI ⟨1⟩).handled = true ∧
    Act.exitA 1 ∉ (Deliver locM locI ⟨1⟩).trace ∧
    Act.enterA 1 ∉ (Deliver locM locI ⟨1⟩).trace := by
  have h := c5_local_shifts_lca locM locI ⟨1⟩
    (by constructor <;> first | rfl | decide) rfl rfl (by decide) rfl
    (by have hx : locI.historyShallow = none := rfl
        rw [hx]
        exact ShInv_none locM)
    (by have hx : locI.historyDeep = none := rfl
        rw [hx]
        exact DpInv_none locM)
    rfl rfl rfl rfl (by decide) (Or.inr (by decide))
  exact ⟨h.1, h.2.2.1, h.2.2.2⟩

/-- A machine whose only composite without an initial sub-state (2) is
the target of an internal transition alone: 0 top, 1 A (event 1 into
the leaf 3 inside 2), 2 C composite without initial carrying an
internal self-transition, 3 leaf child of C, 4 terminal. -/
def intM : Machine Unit :=
  { states :=
      [ ⟨none, [1, 2], some 1, none, none, [], 0⟩,
        ⟨some 0, [], none, none, none,
          [⟨false, false, 1, 3, none, none, 0⟩], 0⟩,
        ⟨some 0, [3], none, none, none,
          [⟨true, false, 5, 2, none, none, 0⟩], 0⟩,
        ⟨some 2, [], none, none, none, [], 0⟩,
        ⟨none, [], none, none, none, [], 0⟩ ],
    terminal := 4, machineHistory := 0, topValidated := true }

theorem c6_finalize_internal_exemption_witness : FinalizePass intM = true :=
  (c6_finalize_internal_exemption intM
    (by constructor <;> first | rfl | decide)).mpr (by decide)

theorem c8_leaf_invariant_witness :
    (InitializeI histM ⟨(), none, none, none, false⟩ ⟨0⟩).1.current =
      some ((iChain histM (stN histM) (some 0)).getLastD 0) ∧
    (getSt histM ((iChain histM (stN histM) (some 0)).getLastD 0)).children
      = [] ∧
    (InitializeI histM ⟨(), none, none, none, false⟩ ⟨0⟩).2.1 =
      (iChain histM (stN histM) (some 0)).filterMap (entryEmit histM) ∧
    (InitializeI histM ⟨(), none, none, none, false⟩ ⟨0⟩).2.2 = false :=
  (c8_leaf_invariant histM ⟨(), none, none, none, false⟩ ⟨0⟩
    (by constructor <;> first | rfl | decide) (by decide) rfl).1

theorem c10_history_nil_safety_witness :
    (Deliver histM histI ⟨1⟩).nilWrite = false ∧
    (InitializeI histM ⟨(), none, none, none, false⟩ ⟨0⟩).1.historyShallow.isSome
      = hasSh histM.machineHistory := by
  have h := c10_history_nil_safety histM ⟨(), none, none, none, false⟩ histI
    ⟨0⟩ ⟨1⟩ (by constructor <;> first | rfl | decide) rfl rfl rfl (by decide)
    rfl rfl
  exact ⟨h.2.2, h.2.1.1⟩

end Hsm
